import Mathlib

/-!
Verification of the TreeVisualizer algorithm engine.

Shallow embedding of the tree engines of the repository
(BST, AVL, B-Tree, B+Tree, Red-Black, Trie) and proofs about them.
Numeric keys are modelled as `Int` (the source uses JS numbers; all
claims and examples use integer keys, where JS `<`, `>`, `===` agree
with the integer order).  Display-only fields (node `id` strings,
narration messages) are dropped from the pure models; where object
identity or back/sibling pointers matter (Red-Black parent pointers,
B+Tree `next` pointers, the mutation claims) the code is modelled
against an explicit store mapping addresses to node records.
-/

namespace TreeVis

/-! ## Input normalization

`Array.from(new Set(values))` in the source deduplicates the parsed
value list keeping the first occurrence of each value, in order.
Parsing itself (comma split and `parseFloat`) is not modelled: engines are
modelled from the deduplicated numeric value list onward. -/

/-- Models `Array.from(new Set(values))`: keep the first occurrence of
each value, preserving order. -/
def dedupFirst : List Int → List Int
  | [] => []
  | v :: rest => v :: (dedupFirst rest).filter (· ≠ v)

theorem mem_dedupFirst (x : Int) : ∀ l : List Int, x ∈ dedupFirst l ↔ x ∈ l := by
  intro l
  induction l with
  | nil => simp [dedupFirst]
  | cons v rest ih =>
    simp only [dedupFirst, List.mem_cons, List.mem_filter]
    constructor
    · rintro (h | ⟨h, _⟩)
      · exact Or.inl h
      · exact Or.inr (ih.mp h)
    · rintro (h | h)
      · exact Or.inl h
      · by_cases hx : x = v
        · exact Or.inl hx
        · exact Or.inr ⟨ih.mpr h, by simpa using hx⟩

/-! ## BST engine (pure model)

From `buildTree.ts` (`buildTree`, `insertNode`) and
`bstOperations.ts` (`insertSingleValue`).  The node `id` field is
display-only and omitted; `left`/`right`/`value` are kept. -/

/-- Binary tree node (`TreeNode` with the display-only `id` dropped);
`nil` is the `null` pointer. -/
inductive Tree where
  | nil : Tree
  | node (value : Int) (left right : Tree) : Tree
  deriving DecidableEq, Repr

/-- Models `insertNode` of `buildTree.ts`: recursive BST insert,
duplicates are a no-op. -/
def insertNode : Tree → Int → Tree
  | .nil, v => .node v .nil .nil
  | .node x l r, v =>
    if v = x then .node x l r
    else if v < x then .node x (insertNode l v) r
    else .node x l (insertNode r v)

/-- Models `buildTree` of `buildTree.ts`: deduplicate, then insert the
values one by one starting from the empty tree. -/
def buildTree (values : List Int) : Tree :=
  (dedupFirst values).foldl insertNode .nil

/-- Models `insertSingleValue` of `bstOperations.ts`: iterative walk to
the insertion point on a clone, duplicate is a recorded no-op.  The
walk (compare, go left/right, attach at the null slot) is expressed as
the equivalent structural recursion. -/
def insertSingleValue : Tree → Int → Tree
  | .nil, v => .node v .nil .nil
  | .node x l r, v =>
    if v = x then .node x l r
    else if v < x then .node x (insertSingleValue l v) r
    else .node x l (insertSingleValue r v)

/-- The sequence of values visited by `inorderTraversal` of
`traversals.ts` (left, node, right). -/
def inorder : Tree → List Int
  | .nil => []
  | .node x l r => inorder l ++ x :: inorder r

/-- BST ordering invariant: all values in the left subtree are below
the node value, all values in the right subtree above, recursively. -/
def IsBST : Tree → Prop
  | .nil => True
  | .node x l r =>
      IsBST l ∧ IsBST r ∧ (∀ y ∈ inorder l, y < x) ∧ (∀ y ∈ inorder r, x < y)

theorem mem_inorder_insertNode (t : Tree) (v x : Int) :
    x ∈ inorder (insertNode t v) ↔ x = v ∨ x ∈ inorder t := by
  induction t with
  | nil => simp [insertNode, inorder]
  | node y l r ihl ihr =>
    by_cases hvy : v = y
    · subst hvy
      simp only [insertNode, if_pos rfl, inorder, List.mem_append, List.mem_cons]
      constructor
      · exact Or.inr
      · rintro (rfl | h)
        · exact Or.inr (Or.inl rfl)
        · exact h
    · by_cases hlt : v < y
      · simp only [insertNode, if_neg hvy, if_pos hlt, inorder, List.mem_append,
          List.mem_cons, ihl]
        tauto
      · simp only [insertNode, if_neg hvy, if_neg hlt, inorder, List.mem_append,
          List.mem_cons, ihr]
        tauto

theorem isBST_insertNode (t : Tree) (v : Int) (h : IsBST t) :
    IsBST (insertNode t v) := by
  induction t with
  | nil => simp [insertNode, IsBST, inorder]
  | node y l r ihl ihr =>
    obtain ⟨hl, hr, hlb, hrb⟩ := h
    by_cases hvy : v = y
    · subst hvy
      simpa [insertNode, IsBST] using ⟨hl, hr, hlb, hrb⟩
    · by_cases hlt : v < y
      · simp only [insertNode, if_neg hvy, if_pos hlt, IsBST]
        refine ⟨ihl hl, hr, ?_, hrb⟩
        intro z hz
        rcases (mem_inorder_insertNode l v z).mp hz with rfl | hz'
        · exact hlt
        · exact hlb z hz'
      · have hgt : y < v := lt_of_le_of_ne (not_lt.mp hlt) (Ne.symm hvy)
        simp only [insertNode, if_neg hvy, if_neg hlt, IsBST]
        refine ⟨hl, ihr hr, hlb, ?_⟩
        intro z hz
        rcases (mem_inorder_insertNode r v z).mp hz with rfl | hz'
        · exact hgt
        · exact hrb z hz'

theorem chain'_inorder_of_isBST (t : Tree) (h : IsBST t) :
    List.Chain' (· < ·) (inorder t) := by
  induction t with
  | nil => simp [inorder]
  | node y l r ihl ihr =>
    obtain ⟨hl, hr, hlb, hrb⟩ := h
    rw [inorder, List.chain'_append]
    refine ⟨ihl hl, ?_, ?_⟩
    · rw [List.chain'_cons']
      exact ⟨fun z hz => hrb z (List.mem_of_mem_head? hz), ihr hr⟩
    · intro a ha b hb
      rw [List.head?_cons, Option.mem_some_iff] at hb
      subst hb
      exact hlb a (List.mem_of_mem_getLast? ha)

theorem isBST_buildTree_aux (vs : List Int) (t : Tree) (h : IsBST t) :
    IsBST (vs.foldl insertNode t) := by
  induction vs generalizing t with
  | nil => exact h
  | cons v rest ih => exact ih _ (isBST_insertNode t v h)

theorem mem_foldl_insertNode (vs : List Int) (t : Tree) (x : Int) :
    x ∈ inorder (vs.foldl insertNode t) ↔ x ∈ vs ∨ x ∈ inorder t := by
  induction vs generalizing t with
  | nil => simp
  | cons v rest ih =>
    rw [List.foldl_cons, ih, mem_inorder_insertNode]
    simp only [List.mem_cons]
    tauto

/-- C7: the in-order traversal of `buildTree values` is strictly
increasing and its members are exactly the members of the input value
list (so each distinct parsed value is visited exactly once). -/
theorem buildTree_inorder_sorted_and_complete (values : List Int) :
    List.Chain' (· < ·) (inorder (buildTree values)) ∧
      ∀ x : Int, x ∈ inorder (buildTree values) ↔ x ∈ values := by
  constructor
  · exact chain'_inorder_of_isBST _ (isBST_buildTree_aux _ _ trivial)
  · intro x
    rw [buildTree, mem_foldl_insertNode, mem_dedupFirst]
    simp [inorder]

/-! ## AVL engine (pure model)

From `avlTree.ts` (`buildAVLTreeWithSteps`, `insertAVLNodeWithSteps`,
`insertAndTrack`, `getHeight`, `getBalance`, `rotateLeft`,
`rotateRight`). -/

/-- Models `getHeight`: 0 for null, else 1 + max of children heights. -/
def getHeight : Tree → Nat
  | .nil => 0
  | .node _ l r => 1 + max (getHeight l) (getHeight r)

/-- Models `getBalance`: `height(left) − height(right)` (0 for null). -/
def getBalance : Tree → Int
  | .nil => 0
  | .node _ l r => (getHeight l : Int) - (getHeight r : Int)

/-- Models `rotateRight(y)`: the source dereferences `y.left!`; under
its guards `y.left` is non-null.  Any other shape is returned
unchanged (unreachable under the guards). -/
def rotateRight : Tree → Tree
  | .node y (.node x a b) c => .node x a (.node y b c)
  | t => t

/-- Models `rotateLeft(x)`; `x.right` is non-null under the guards. -/
def rotateLeft : Tree → Tree
  | .node x a (.node y b c) => .node y (.node x a b) c
  | t => t

/-- Models `insertAndTrack` of `avlTree.ts`: a plain BST attach (no
rebalancing anywhere on the path), duplicate is a recorded no-op. -/
def insertAndTrack : Tree → Int → Tree
  | .nil, v => .node v .nil .nil
  | .node x l r, v =>
    if v = x then .node x l r
    else if v < x then
      match l with
      | .nil => .node x (.node v .nil .nil) r
      | _ => .node x (insertAndTrack l v) r
    else
      match r with
      | .nil => .node x l (.node v .nil .nil)
      | _ => .node x l (insertAndTrack r v)

/-- Models `insertAVLNodeWithSteps` of `avlTree.ts`: BST attach via
`insertAndTrack`, then the four rotation cases are checked at the
*root only* (the source never rebalances deeper nodes). -/
def insertAVLNodeWithSteps (startRoot : Tree) (v : Int) : Tree :=
  match startRoot with
  | .nil => .node v .nil .nil
  | t =>
    match insertAndTrack t v with
    | .nil => .nil
    | .node x l r =>
      let bal := getBalance (.node x l r)
      if 1 < bal then
        match l with
        | .node lx ll lr =>
          if v < lx then
            rotateRight (.node x (.node lx ll lr) r)
          else if lx < v then
            rotateRight (.node x (rotateLeft (.node lx ll lr)) r)
          else .node x (.node lx ll lr) r
        | .nil => .node x l r
      else if bal < -1 then
        match r with
        | .node rx rl rr =>
          if rx < v then
            rotateLeft (.node x l (.node rx rl rr))
          else if v < rx then
            rotateLeft (.node x l (rotateRight (.node rx rl rr)))
          else .node x l (.node rx rl rr)
        | .nil => .node x l r
      else .node x l r

/-- Models `buildAVLTreeWithSteps` of `avlTree.ts`: deduplicate, then
insert each value with `insertAVLNodeWithSteps` starting from null. -/
def buildAVLTreeWithSteps (values : List Int) : Tree :=
  (dedupFirst values).foldl insertAVLNodeWithSteps .nil

/-- The AVL balance invariant of the claim: at every node,
`|height(left) − height(right)| ≤ 1`. -/
def balancedAVL : Tree → Bool
  | .nil => true
  | .node _ l r =>
      (((getHeight l : Int) - (getHeight r : Int)).natAbs ≤ 1 : Bool)
        && balancedAVL l && balancedAVL r

/-! ## Trie engine (pure model)

From `trieOperations.ts` (`insertWord` / `insertWordWithSteps`,
`searchTrieWithSteps`, `deleteWord`, `deleteTrieWithSteps`).  A node's
`children` is a JS `Map` keyed by character: modelled as an
association list in insertion order (`Map.set` replaces in place or
appends, `Map.delete` removes the entry). -/

/-- Trie node: `isEndOfWord` flag and character-keyed children in
insertion order (the display-only `id` and the redundant `char` field
are omitted). -/
inductive Trie where
  | mk (isEnd : Bool) (children : List (Char × Trie)) : Trie

def Trie.isEnd : Trie → Bool
  | .mk e _ => e

def Trie.children : Trie → List (Char × Trie)
  | .mk _ cs => cs

/-- Lookup `children.get(char)` on the JS `Map`. -/
def findChild : List (Char × Trie) → Char → Option Trie
  | [], _ => none
  | (c', t') :: rest, c => if c' = c then some t' else findChild rest c

/-- Update `children.set(char, t)` on the JS `Map`: replace in place if the
key exists, else append. -/
def setChild : List (Char × Trie) → Char → Trie → List (Char × Trie)
  | [], c, t => [(c, t)]
  | (c', t') :: rest, c, t =>
    if c' = c then (c, t) :: rest else (c', t') :: setChild rest c t

/-- Removal `children.delete(char)` on the JS `Map`. -/
def delChild : List (Char × Trie) → Char → List (Char × Trie)
  | [], _ => []
  | (c', t') :: rest, c => if c' = c then rest else (c', t') :: delChild rest c

/-- Models `insertWord` (and the identical walk of
`insertWordWithSteps`): walk the word, creating a child where absent,
and set the terminal node's end-of-word flag. -/
def insertWord : Trie → List Char → Trie
  | .mk _ cs, [] => .mk true cs
  | .mk e cs, c :: w =>
    match findChild cs c with
    | some child => .mk e (setChild cs c (insertWord child w))
    | none => .mk e (setChild cs c (insertWord (.mk false []) w))

/-- Whether `searchTrieWithSteps` reports the word found: the walk
completes and the terminal node's end-of-word flag is set. -/
def foundWord : Trie → List Char → Bool
  | .mk e _, [] => e
  | .mk _ cs, c :: w =>
    match findChild cs c with
    | some child => foundWord child w
    | none => false

/-- Models `deleteHelper` of `deleteWord`: returns the updated node and
whether the parent should remove it (childless and not end-of-word). -/
def deleteHelper : Trie → List Char → Trie × Bool
  | .mk e cs, [] =>
    if e then (.mk false cs, cs.isEmpty) else (.mk e cs, false)
  | .mk e cs, c :: w =>
    match findChild cs c with
    | none => (.mk e cs, false)
    | some child =>
      let res := deleteHelper child w
      if res.2 then
        let cs' := delChild cs c
        (.mk e cs', cs'.isEmpty && !e)
      else
        (.mk e (setChild cs c res.1), false)

/-- Models the structural effect of `deleteTrieWithSteps`: search for
the word first; only when it is found as a complete word is
`deleteWord` run on the root. -/
def deleteTrie (t : Trie) (w : List Char) : Trie :=
  if foundWord t w then (deleteHelper t w).1 else t

/-- The empty root created by `buildTrie` / `insertTrieWithSteps`. -/
def emptyTrie : Trie := .mk false []

/-- Invariant of every trie reachable through the engine: a children
map never holds two entries with the same character (JS `Map` keys are
unique). -/
inductive KeysNodup : Trie → Prop
  | mk {e : Bool} {cs : List (Char × Trie)} :
      (cs.map Prod.fst).Nodup → (∀ p ∈ cs, KeysNodup p.2) →
        KeysNodup (.mk e cs)

theorem findChild_setChild_self (cs : List (Char × Trie)) (c : Char) (t : Trie) :
    findChild (setChild cs c t) c = some t := by
  induction cs with
  | nil => simp [setChild, findChild]
  | cons p rest ih =>
    obtain ⟨c', t'⟩ := p
    by_cases h : c' = c
    · simp [setChild, findChild, h]
    · simp [setChild, findChild, h, ih]

theorem findChild_setChild_ne (cs : List (Char × Trie)) (c c' : Char) (t : Trie)
    (h : c' ≠ c) : findChild (setChild cs c t) c' = findChild cs c' := by
  induction cs with
  | nil => simp [setChild, findChild, Ne.symm h]
  | cons p rest ih =>
    obtain ⟨c₀, t₀⟩ := p
    by_cases h₀ : c₀ = c
    · subst h₀
      simp [setChild, findChild, Ne.symm h]
    · simp only [setChild, if_neg h₀, findChild]
      by_cases h₁ : c₀ = c'
      · simp [h₁]
      · simp [h₁, ih]

theorem findChild_eq_none_of_not_mem (cs : List (Char × Trie)) (c : Char)
    (h : c ∉ cs.map Prod.fst) : findChild cs c = none := by
  induction cs with
  | nil => simp [findChild]
  | cons p rest ih =>
    obtain ⟨c₀, t₀⟩ := p
    simp only [List.map_cons, List.mem_cons, not_or] at h
    simp only [findChild, if_neg (fun hh : c₀ = c => h.1 hh.symm)]
    exact ih h.2

theorem findChild_delChild_self (cs : List (Char × Trie)) (c : Char)
    (h : (cs.map Prod.fst).Nodup) : findChild (delChild cs c) c = none := by
  induction cs with
  | nil => simp [delChild, findChild]
  | cons p rest ih =>
    obtain ⟨c₀, t₀⟩ := p
    simp only [List.map_cons, List.nodup_cons] at h
    by_cases h₀ : c₀ = c
    · subst h₀
      simp only [delChild, if_pos rfl]
      exact findChild_eq_none_of_not_mem rest c₀ h.1
    · simp only [delChild, if_neg h₀, findChild, if_neg h₀]
      exact ih h.2

theorem findChild_delChild_ne (cs : List (Char × Trie)) (c c' : Char)
    (h : c' ≠ c) : findChild (delChild cs c) c' = findChild cs c' := by
  induction cs with
  | nil => simp [delChild, findChild]
  | cons p rest ih =>
    obtain ⟨c₀, t₀⟩ := p
    by_cases h₀ : c₀ = c
    · subst h₀
      simp [delChild, findChild, Ne.symm h]
    · simp only [delChild, if_neg h₀, findChild]
      by_cases h₁ : c₀ = c'
      · simp [h₁]
      · simp [h₁, ih]

theorem mem_setChild (cs : List (Char × Trie)) (c : Char) (t : Trie)
    (p : Char × Trie) (hp : p ∈ setChild cs c t) : p = (c, t) ∨ p ∈ cs := by
  induction cs with
  | nil => simpa [setChild] using hp
  | cons q rest ih =>
    obtain ⟨c₀, t₀⟩ := q
    by_cases h₀ : c₀ = c
    · simp only [setChild, if_pos h₀, List.mem_cons] at hp
      rcases hp with rfl | hp
      · exact Or.inl rfl
      · exact Or.inr (List.mem_cons_of_mem _ hp)
    · simp only [setChild, if_neg h₀, List.mem_cons] at hp
      rcases hp with rfl | hp
      · exact Or.inr (List.mem_cons_self _ _)
      · rcases ih hp with h | h
        · exact Or.inl h
        · exact Or.inr (List.mem_cons_of_mem _ h)

theorem keys_setChild_nodup (cs : List (Char × Trie)) (c : Char) (t : Trie)
    (h : (cs.map Prod.fst).Nodup) :
    ((setChild cs c t).map Prod.fst).Nodup := by
  induction cs with
  | nil => simp [setChild]
  | cons q rest ih =>
    obtain ⟨c₀, t₀⟩ := q
    simp only [List.map_cons, List.nodup_cons] at h
    by_cases h₀ : c₀ = c
    · subst h₀
      simpa [setChild] using h
    · simp only [setChild, if_neg h₀, List.map_cons, List.nodup_cons]
      refine ⟨?_, ih h.2⟩
      intro hm
      rcases List.mem_map.mp hm with ⟨p, hp, hfst⟩
      rcases mem_setChild rest c t p hp with rfl | hp'
      · exact h₀ hfst.symm
      · exact h.1 (List.mem_map.mpr ⟨p, hp', hfst⟩)

theorem delChild_sublist (cs : List (Char × Trie)) (c : Char) :
    (delChild cs c).Sublist cs := by
  induction cs with
  | nil => simp [delChild]
  | cons q rest ih =>
    obtain ⟨c₀, t₀⟩ := q
    by_cases h₀ : c₀ = c
    · simp only [delChild, if_pos h₀]
      exact List.sublist_cons_self _ _
    · simp only [delChild, if_neg h₀]
      exact ih.cons₂ _

theorem findChild_mem (cs : List (Char × Trie)) (c : Char) (t : Trie)
    (h : findChild cs c = some t) : (c, t) ∈ cs := by
  induction cs with
  | nil => simp [findChild] at h
  | cons q rest ih =>
    obtain ⟨c₀, t₀⟩ := q
    by_cases h₀ : c₀ = c
    · subst h₀
      simp only [findChild, eq_self_iff_true, if_true, Option.some.injEq] at h
      subst h
      exact List.mem_cons_self _ _
    · simp only [findChild, if_neg h₀] at h
      exact List.mem_cons_of_mem _ (ih h)

theorem keysNodup_insertWord (w : List Char) :
    ∀ t : Trie, KeysNodup t → KeysNodup (insertWord t w) := by
  induction w with
  | nil =>
    rintro ⟨e, cs⟩ h
    cases h with
    | mk h1 h2 => exact KeysNodup.mk h1 h2
  | cons c w ih =>
    rintro ⟨e, cs⟩ h
    cases h with
    | mk h1 h2 =>
      simp only [insertWord]
      cases hfc : findChild cs c with
      | some child =>
        refine KeysNodup.mk (keys_setChild_nodup cs c _ h1) ?_
        intro p hp
        rcases mem_setChild _ _ _ _ hp with rfl | hp'
        · exact ih child (h2 _ (findChild_mem cs c child hfc))
        · exact h2 _ hp'
      | none =>
        refine KeysNodup.mk (keys_setChild_nodup cs c _ h1) ?_
        intro p hp
        rcases mem_setChild _ _ _ _ hp with rfl | hp'
        · exact ih _ (KeysNodup.mk (by simp) (by simp))
        · exact h2 _ hp'

theorem keysNodup_foldl_insertWord (W : List (List Char)) :
    ∀ t : Trie, KeysNodup t → KeysNodup (W.foldl insertWord t) := by
  induction W with
  | nil => exact fun t h => h
  | cons w rest ih => exact fun t h => ih _ (keysNodup_insertWord w t h)

theorem foundWord_nil_empty (u : List Char) :
    foundWord (.mk false []) u = false := by
  cases u with
  | nil => rfl
  | cons c w => simp [foundWord, findChild]

theorem foundWord_insertWord_self (w : List Char) :
    ∀ t : Trie, foundWord (insertWord t w) w = true := by
  induction w with
  | nil =>
    rintro ⟨e, cs⟩
    rfl
  | cons c w ih =>
    rintro ⟨e, cs⟩
    simp only [insertWord]
    cases hfc : findChild cs c with
    | some child => simp [foundWord, findChild_setChild_self, ih]
    | none => simp [foundWord, findChild_setChild_self, ih]

theorem foundWord_insertWord_ne (w : List Char) :
    ∀ (t : Trie) (u : List Char), u ≠ w →
      foundWord (insertWord t w) u = foundWord t u := by
  induction w with
  | nil =>
    rintro ⟨e, cs⟩ u hu
    cases u with
    | nil => exact absurd rfl hu
    | cons c' u' => simp [insertWord, foundWord]
  | cons c w ih =>
    rintro ⟨e, cs⟩ u hu
    cases u with
    | nil =>
      cases hfc : findChild cs c <;> simp [insertWord, foundWord, hfc]
    | cons c' u' =>
      by_cases hc : c' = c
      · subst hc
        have hu' : u' ≠ w := fun h => hu (by rw [h])
        cases hfc : findChild cs c' with
        | some child =>
          simp only [insertWord, hfc, foundWord, findChild_setChild_self]
          exact ih child u' hu'
        | none =>
          simp only [insertWord, hfc, foundWord, findChild_setChild_self]
          rw [ih _ u' hu', foundWord_nil_empty]
      · cases hfc : findChild cs c with
        | some child =>
          simp [insertWord, hfc, foundWord, findChild_setChild_ne _ _ _ _ hc]
        | none =>
          simp [insertWord, hfc, foundWord, findChild_setChild_ne _ _ _ _ hc]

theorem foundWord_foldl_insertWord (W : List (List Char)) :
    ∀ (t : Trie) (w : List Char), w ∈ W ∨ foundWord t w = true →
      foundWord (W.foldl insertWord t) w = true := by
  induction W with
  | nil =>
    intro t w h
    simpa using h.resolve_left (by simp)
  | cons v rest ih =>
    intro t w h
    rw [List.foldl_cons]
    by_cases hvw : w = v
    · subst hvw
      exact ih _ w (Or.inr (foundWord_insertWord_self w t))
    · rcases h with h | h
      · rcases List.mem_cons.mp h with h' | h'
        · exact absurd h' hvw
        · exact ih _ w (Or.inl h')
      · exact ih _ w
          (Or.inr (by rw [foundWord_insertWord_ne v t w hvw]; exact h))

theorem deleteHelper_shouldDel (t : Trie) (w : List Char)
    (h : (deleteHelper t w).2 = true) : (deleteHelper t w).1 = .mk false [] := by
  cases t with
  | mk e cs =>
    cases w with
    | nil =>
      by_cases he : e
      · subst he
        simp only [deleteHelper, if_true] at h ⊢
        simp only [List.isEmpty_iff] at h
        subst h
        rfl
      · simp only [Bool.not_eq_true] at he
        subst he
        have hr : (deleteHelper (Trie.mk false cs) []).2 = false := rfl
        rw [hr] at h
        exact absurd h (by simp)
    | cons c w' =>
      simp only [deleteHelper] at h ⊢
      cases hfc : findChild cs c with
      | none => simp [hfc] at h
      | some child =>
        simp only [hfc] at h ⊢
        by_cases hsd : (deleteHelper child w').2
        · simp only [if_pos hsd, Bool.and_eq_true, List.isEmpty_iff,
            Bool.not_eq_true'] at h ⊢
          simp [h.1, h.2]
        · simp [if_neg hsd] at h

theorem foundWord_deleteHelper_self (w : List Char) :
    ∀ t : Trie, KeysNodup t → foundWord ((deleteHelper t w).1) w = false := by
  induction w with
  | nil =>
    rintro ⟨e, cs⟩ _
    by_cases he : e
    · subst he
      simp [deleteHelper, foundWord]
    · simp only [Bool.not_eq_true] at he
      subst he
      simp [deleteHelper, foundWord]
  | cons c w ih =>
    rintro ⟨e, cs⟩ hnd
    cases hnd with
    | mk h1 h2 =>
      simp only [deleteHelper]
      cases hfc : findChild cs c with
      | none => simp [foundWord, hfc]
      | some child =>
        by_cases hsd : (deleteHelper child w).2
        · simp only [if_pos hsd, foundWord,
            findChild_delChild_self cs c h1]
        · simp only [if_neg hsd, foundWord, findChild_setChild_self]
          exact ih child (h2 _ (findChild_mem cs c child hfc))

theorem foundWord_deleteHelper_ne (w : List Char) :
    ∀ (t : Trie) (u : List Char), KeysNodup t → u ≠ w →
      foundWord ((deleteHelper t w).1) u = foundWord t u := by
  induction w with
  | nil =>
    rintro ⟨e, cs⟩ u _ hu
    cases u with
    | nil => exact absurd rfl hu
    | cons c' u' =>
      by_cases he : e
      · subst he
        simp [deleteHelper, foundWord]
      · simp only [Bool.not_eq_true] at he
        subst he
        simp [deleteHelper, foundWord]
  | cons c w ih =>
    rintro ⟨e, cs⟩ u hnd hu
    cases hnd with
    | mk h1 h2 =>
      simp only [deleteHelper]
      cases hfc : findChild cs c with
      | none => rfl
      | some child =>
        have hchild : KeysNodup child := h2 _ (findChild_mem cs c child hfc)
        by_cases hsd : (deleteHelper child w).2
        · simp only [if_pos hsd]
          cases u with
          | nil => simp [foundWord]
          | cons c' u' =>
            by_cases hc : c' = c
            · subst hc
              have hdel : (deleteHelper child w).1 = .mk false [] :=
                deleteHelper_shouldDel child w hsd
              have hu' : u' ≠ w := fun h => hu (by rw [h])
              have hfc0 : foundWord child u' = false := by
                have h3 := ih child u' hchild hu'
                rw [hdel, foundWord_nil_empty] at h3
                exact h3.symm
              simp [foundWord, findChild_delChild_self cs _ h1, hfc, hfc0]
            · simp only [foundWord, findChild_delChild_ne cs c c' hc]
        · simp only [if_neg hsd]
          cases u with
          | nil => simp [foundWord]
          | cons c' u' =>
            by_cases hc : c' = c
            · subst hc
              rw [foundWord, findChild_setChild_self, foundWord, hfc]
              exact ih child u' hchild (fun h => hu (by rw [h]))
            · rw [foundWord, findChild_setChild_ne _ _ _ _ hc, foundWord]

theorem setChild_findChild_eq (cs : List (Char × Trie)) (c : Char) (child : Trie)
    (h : findChild cs c = some child) : setChild cs c child = cs := by
  induction cs with
  | nil => simp [findChild] at h
  | cons q rest ih =>
    obtain ⟨c₀, t₀⟩ := q
    by_cases h₀ : c₀ = c
    · subst h₀
      simp only [findChild, eq_self_iff_true, if_true, Option.some.injEq] at h
      subst h
      simp [setChild]
    · simp only [findChild, if_neg h₀] at h
      simp [setChild, h₀, ih h]

theorem insertWord_found_eq : ∀ (w : List Char) (tr : Trie),
    foundWord tr w = true → insertWord tr w = tr := by
  intro w
  induction w with
  | nil =>
    rintro ⟨e, cs⟩ h
    rw [show foundWord (Trie.mk e cs) [] = e from rfl] at h
    subst h
    rfl
  | cons c w ih =>
    rintro ⟨e, cs⟩ h
    simp only [foundWord] at h
    cases hfc : findChild cs c with
    | none => rw [hfc] at h; exact absurd h (by simp)
    | some child =>
      rw [hfc] at h
      simp only [insertWord, hfc, ih child h,
        setChild_findChild_eq cs c child hfc]

theorem insertSingleValue_mem_eq : ∀ (t : Tree) (v : Int),
    IsBST t → v ∈ inorder t → insertSingleValue t v = t := by
  intro t
  induction t with
  | nil => simp [inorder]
  | node x l r ihl ihr =>
    intro v hbst hmem
    obtain ⟨hl, hr, hlb, hrb⟩ := hbst
    by_cases hvx : v = x
    · simp [insertSingleValue, hvx]
    · rw [inorder] at hmem
      rcases List.mem_append.mp hmem with hvl | hvm
      · have hlt : v < x := hlb v hvl
        simp [insertSingleValue, hvx, hlt, ihl v hl hvl]
      · rcases List.mem_cons.mp hvm with rfl | hvr
        · exact absurd rfl hvx
        · have hgt : x < v := hrb v hvr
          simp [insertSingleValue, hvx, not_lt.mpr (le_of_lt hgt), ihr v hr hvr]

/-- C9: inserting a value already present in a BST
(`insertSingleValue`) returns a structurally identical tree, and
inserting a word already stored in the trie (`insertWordWithSteps`)
returns a structurally identical trie; both complete normally (they
are total functions here, and the no-op is the recorded
already-exists step). -/
theorem insert_duplicate_idempotent :
    (∀ (t : Tree) (v : Int), IsBST t → v ∈ inorder t →
        insertSingleValue t v = t) ∧
      ∀ (w : List Char) (tr : Trie), foundWord tr w = true →
        insertWord tr w = tr :=
  ⟨insertSingleValue_mem_eq, insertWord_found_eq⟩

/-- Witness for C9 at concrete inputs: the BST `node 5 (node 3) (node 7)`
with duplicate insert of 3, and the trie storing "ca" with duplicate
insert of "ca". -/
theorem insert_duplicate_idempotent_witness :
    (IsBST (Tree.node 5 (.node 3 .nil .nil) (.node 7 .nil .nil)) ∧
        (3 : Int) ∈ inorder (Tree.node 5 (.node 3 .nil .nil) (.node 7 .nil .nil)) ∧
        insertSingleValue (Tree.node 5 (.node 3 .nil .nil) (.node 7 .nil .nil)) 3 =
          Tree.node 5 (.node 3 .nil .nil) (.node 7 .nil .nil)) ∧
      foundWord (insertWord emptyTrie [Char.ofNat 99, Char.ofNat 97])
          [Char.ofNat 99, Char.ofNat 97] = true ∧
        insertWord (insertWord emptyTrie [Char.ofNat 99, Char.ofNat 97])
            [Char.ofNat 99, Char.ofNat 97] =
          insertWord emptyTrie [Char.ofNat 99, Char.ofNat 97] := by
  have hbst : IsBST (Tree.node 5 (.node 3 .nil .nil) (.node 7 .nil .nil)) := by
    refine ⟨⟨trivial, trivial, ?_, ?_⟩, ⟨trivial, trivial, ?_, ?_⟩, ?_, ?_⟩ <;>
      · intro y hy
        simp [inorder] at hy <;> omega
  have hmem : (3 : Int) ∈ inorder (Tree.node 5 (.node 3 .nil .nil) (.node 7 .nil .nil)) := by
    simp [inorder]
  have hfound : foundWord (insertWord emptyTrie [Char.ofNat 99, Char.ofNat 97])
      [Char.ofNat 99, Char.ofNat 97] = true :=
    foundWord_insertWord_self _ _
  exact ⟨⟨hbst, hmem, insert_duplicate_idempotent.1 _ 3 hbst hmem⟩,
    hfound, insert_duplicate_idempotent.2 _ _ hfound⟩

/-- C8: in a trie built from a word list `W`, after deleting a stored
word `w` (`deleteTrieWithSteps`), every other stored word is still
reported found by `searchTrieWithSteps`, and `w` itself no longer is. -/
theorem deleteTrie_spares_other_words (W : List (List Char)) (w : List Char)
    (hw : w ∈ W) :
    (∀ u ∈ W, u ≠ w →
        foundWord (deleteTrie (W.foldl insertWord emptyTrie) w) u = true) ∧
      foundWord (deleteTrie (W.foldl insertWord emptyTrie) w) w = false := by
  have hnd : KeysNodup (W.foldl insertWord emptyTrie) :=
    keysNodup_foldl_insertWord W emptyTrie (KeysNodup.mk (by simp) (by simp))
  have hfound : foundWord (W.foldl insertWord emptyTrie) w = true :=
    foundWord_foldl_insertWord W emptyTrie w (Or.inl hw)
  rw [deleteTrie, if_pos hfound]
  constructor
  · intro u hu hne
    rw [foundWord_deleteHelper_ne w _ u hnd hne]
    exact foundWord_foldl_insertWord W emptyTrie u (Or.inl hu)
  · exact foundWord_deleteHelper_self w _ hnd

/-- Witness for C8: the spec scenario `cat, car, cart`, deleting
`cat`; `car` and `cart` remain searchable, `cat` does not. -/
theorem deleteTrie_spares_other_words_witness :
    [Char.ofNat 99, Char.ofNat 97, Char.ofNat 116] ∈
        [[Char.ofNat 99, Char.ofNat 97, Char.ofNat 116],
          [Char.ofNat 99, Char.ofNat 97, Char.ofNat 114],
          [Char.ofNat 99, Char.ofNat 97, Char.ofNat 114, Char.ofNat 116]] ∧
      ((∀ u ∈ [[Char.ofNat 99, Char.ofNat 97, Char.ofNat 116],
            [Char.ofNat 99, Char.ofNat 97, Char.ofNat 114],
            [Char.ofNat 99, Char.ofNat 97, Char.ofNat 114, Char.ofNat 116]],
          u ≠ [Char.ofNat 99, Char.ofNat 97, Char.ofNat 116] →
          foundWord
            (deleteTrie
              ([[Char.ofNat 99, Char.ofNat 97, Char.ofNat 116],
                  [Char.ofNat 99, Char.ofNat 97, Char.ofNat 114],
                  [Char.ofNat 99, Char.ofNat 97, Char.ofNat 114,
                    Char.ofNat 116]].foldl insertWord emptyTrie)
              [Char.ofNat 99, Char.ofNat 97, Char.ofNat 116]) u = true) ∧
        foundWord
          (deleteTrie
            ([[Char.ofNat 99, Char.ofNat 97, Char.ofNat 116],
                [Char.ofNat 99, Char.ofNat 97, Char.ofNat 114],
                [Char.ofNat 99, Char.ofNat 97, Char.ofNat 114,
                  Char.ofNat 116]].foldl insertWord emptyTrie)
            [Char.ofNat 99, Char.ofNat 97, Char.ofNat 116])
          [Char.ofNat 99, Char.ofNat 97, Char.ofNat 116] = false) :=
  ⟨by decide, deleteTrie_spares_other_words _ _ (by decide)⟩

/-! ## B-Tree engine (pure model)

From `bTree.ts` (`buildBTree`, `insertBTree`, `splitChild`,
`insertNonFull`) and `bTreeOperations.ts` (`deleteBTreeWithSteps`,
`deleteSingleValue`, `deleteFromNode`, `deleteFromInternalNode`,
`fill`, `borrowFromPrev`, `borrowFromNext`, `merge`,
`getPredecessor`, `getSuccessor`).  The minimum degree `t`
(`MIN_DEGREE`) is passed explicitly.  Recursion into freshly merged
or split children is not structural, so the recursive functions carry
a fuel argument; with fuel at least the tree height they compute
exactly what the source computes (out of fuel they return their input
unchanged, which no theorem below relies on). -/

/-- B-Tree node: sorted keys, children, leaf flag (`BTreeNode` with the
display-only `id` dropped). -/
inductive BTree where
  | mk (keys : List Int) (children : List BTree) (isLeaf : Bool) : BTree

def BTree.keys : BTree → List Int
  | .mk ks _ _ => ks

def BTree.children : BTree → List BTree
  | .mk _ cs _ => cs

def BTree.isLeaf : BTree → Bool
  | .mk _ _ lf => lf

/-- Placeholder for an out-of-range JS array read (which would crash
in the source); unreachable on well-formed trees. -/
def dummyBTree : BTree := .mk [] [] true

/-- Models the leaf insertion loop of `insertNonFull`: push the key at
the end, then shift every larger element of the tail one slot right
and drop the key after the last element that is `≤` it. -/
def jsSortedInsert (l : List Int) (key : Int) : List Int :=
  let rev := l.reverse
  (rev.dropWhile (fun k => key < k)).reverse ++
    key :: (rev.takeWhile (fun k => key < k)).reverse

/-- Models the descent-index loop `while (i >= 0 && key < keys[i])
i--; i++` of `insertNonFull` and the loop `while (i < keys.length &&
key > keys[i]) i++` of `deleteFromNode`/search: the index of the
first key that is `≥ key`. -/
def firstGE (keys : List Int) (key : Int) : Nat :=
  (keys.takeWhile (fun k => k < key)).length

/-- Models `splitChild(parent, index)` of `bTree.ts`: move the upper
`t` keys (and children) of the full child into a new right sibling,
pop the child's median key into the parent at `index`. -/
def splitChild (t : Nat) (parent : BTree) (index : Nat) : BTree :=
  match parent with
  | .mk pkeys pchildren pleaf =>
    match pchildren.get? index with
    | none => parent
    | some (.mk ckeys cchildren cleaf) =>
      let keptKeys := ckeys.take t
      let newChild : BTree :=
        .mk (ckeys.drop t) (if cleaf then [] else cchildren.drop t) cleaf
      let fullChild : BTree :=
        .mk keptKeys.dropLast (if cleaf then cchildren else cchildren.take t) cleaf
      let midKey := keptKeys.getLastD 0
      .mk (pkeys.insertIdx index midKey)
        ((pchildren.set index fullChild).insertIdx (index + 1) newChild)
        pleaf

/-- Models `insertNonFull` of `bTree.ts` (fuel-indexed). -/
def insertNonFull (t : Nat) : Nat → BTree → Int → BTree
  | 0, nd, _ => nd
  | fuel + 1, .mk keys children leaf, key =>
    if leaf then .mk (jsSortedInsert keys key) children leaf
    else
      let i := firstGE keys key
      match children.get? i with
      | none => .mk keys children leaf
      | some child =>
        if child.keys.length = 2 * t - 1 then
          match splitChild t (.mk keys children leaf) i with
          | .mk keys₁ children₁ leaf₁ =>
            let i₁ := if keys₁.getD i key < key then i + 1 else i
            match children₁.get? i₁ with
            | none => .mk keys₁ children₁ leaf₁
            | some child₁ =>
              .mk keys₁
                (children₁.set i₁ (insertNonFull t fuel child₁ key)) leaf₁
        else
          .mk keys (children.set i (insertNonFull t fuel child key)) leaf

/-- Models `insertBTree` of `bTree.ts`: split a full root under a new
root first, then insert into the non-full root. -/
def insertBTree (t : Nat) (fuel : Nat) (root : BTree) (key : Int) : BTree :=
  if root.keys.length = 2 * t - 1 then
    insertNonFull t fuel (splitChild t (.mk [] [root] false) 0) key
  else
    insertNonFull t fuel root key

/-- Models `buildBTree` of `bTree.ts` on a non-empty value list:
deduplicate, then insert one by one starting from an empty leaf root
(fuel `values.length + 1` always exceeds the tree height). -/
def buildBTree (t : Nat) (values : List Int) : BTree :=
  (dedupFirst values).foldl
    (fun r v => insertBTree t (values.length + 1) r v) (.mk [] [] true)

/-- Number of node levels of a B-Tree (a lone leaf has height 1);
fuel-indexed so that it reduces by evaluation (any fuel above the
actual height gives the height). -/
def bHeight : Nat → BTree → Nat
  | 0, _ => 0
  | fuel + 1, .mk _ cs _ => 1 + (cs.map (bHeight fuel)).foldr max 0

/-- C6 (counterexample): building a B-Tree with minimum degree `t = 2`
from `1..7` in ascending order does *not* produce a root with exactly
1 key and height 3: the split-ahead insertion of the source yields
root `[2, 4]` over leaves `[1]`, `[3]`, `[5, 6, 7]`, so the root has 2
keys and the tree has 2 levels. -/
theorem buildBTree_t2_claim_false :
    ¬ ((buildBTree 2 [1, 2, 3, 4, 5, 6, 7]).keys.length = 1 ∧
        bHeight 9 (buildBTree 2 [1, 2, 3, 4, 5, 6, 7]) = 3) := by
  decide

/-- C6 (amended): building with `t = 2` from `1..7` ascending yields
the tree with root `[2, 4]` and leaves `[1]`, `[3]`, `[5, 6, 7]`: the
root ends with exactly 2 keys and the tree height is 2. -/
theorem buildBTree_t2_seven_shape :
    buildBTree 2 [1, 2, 3, 4, 5, 6, 7] =
        .mk [2, 4]
          [.mk [1] [] true, .mk [3] [] true, .mk [5, 6, 7] [] true] false ∧
      (buildBTree 2 [1, 2, 3, 4, 5, 6, 7]).keys.length = 2 ∧
      bHeight 9 (buildBTree 2 [1, 2, 3, 4, 5, 6, 7]) = 2 := by
  exact ⟨rfl, by decide, by decide⟩

/-! ### B-Tree deletion (from `bTreeOperations.ts`)

`deleteFromNode` is additionally instrumented to return the list of
"descent events": each time the recursion, searching for a key not
contained in the current internal node, descends into a child
(`deleteFromNode(node.children[i], key)` in the key-not-in-this-node
branch), the key count of that child at that moment is recorded.
These are exactly the descents claim C5 speaks about. -/

/-- Models `merge(node, i)`: fold `node.keys[i]` and the right sibling
into `children[i]`, then drop the key and the sibling. -/
def mergeAt (node : BTree) (i : Nat) : BTree :=
  match node with
  | .mk keys children leaf =>
    let child := children.getD i dummyBTree
    let sibling := children.getD (i + 1) dummyBTree
    let child' : BTree :=
      .mk (child.keys ++ keys.getD i 0 :: sibling.keys)
        (if child.isLeaf then child.children
         else child.children ++ sibling.children)
        child.isLeaf
    .mk (keys.eraseIdx i) (((children.set i child').eraseIdx (i + 1))) leaf

/-- Models `borrowFromPrev(node, childIndex)`. -/
def borrowFromPrev (node : BTree) (ci : Nat) : BTree :=
  match node with
  | .mk keys children leaf =>
    let child := children.getD ci dummyBTree
    let sibling := children.getD (ci - 1) dummyBTree
    let child' : BTree :=
      .mk (keys.getD (ci - 1) 0 :: child.keys)
        (if child.isLeaf then child.children
         else sibling.children.getLastD dummyBTree :: child.children)
        child.isLeaf
    let sibling' : BTree :=
      .mk sibling.keys.dropLast
        (if child.isLeaf then sibling.children else sibling.children.dropLast)
        sibling.isLeaf
    .mk (keys.set (ci - 1) (sibling.keys.getLastD 0))
      ((children.set ci child').set (ci - 1) sibling') leaf

/-- Models `borrowFromNext(node, childIndex)`. -/
def borrowFromNext (node : BTree) (ci : Nat) : BTree :=
  match node with
  | .mk keys children leaf =>
    let child := children.getD ci dummyBTree
    let sibling := children.getD (ci + 1) dummyBTree
    let child' : BTree :=
      .mk (child.keys ++ [keys.getD ci 0])
        (if child.isLeaf then child.children
         else child.children ++ [sibling.children.headD dummyBTree])
        child.isLeaf
    let sibling' : BTree :=
      .mk sibling.keys.tail
        (if child.isLeaf then sibling.children else sibling.children.tail)
        sibling.isLeaf
    .mk (keys.set ci (sibling.keys.headD 0))
      ((children.set ci child').set (ci + 1) sibling') leaf

/-- Models `fill(node, i)`: borrow from the previous sibling if it has
`≥ t` keys, else from the next, else merge with a sibling. -/
def fill (t : Nat) (node : BTree) (i : Nat) : BTree :=
  match node with
  | .mk keys children leaf =>
    if i ≠ 0 ∧ t ≤ (children.getD (i - 1) dummyBTree).keys.length then
      borrowFromPrev (.mk keys children leaf) i
    else if i ≠ children.length - 1 ∧
        t ≤ (children.getD (i + 1) dummyBTree).keys.length then
      borrowFromNext (.mk keys children leaf) i
    else if i ≠ children.length - 1 then
      mergeAt (.mk keys children leaf) i
    else
      mergeAt (.mk keys children leaf) (i - 1)

/-- Models `getPredecessor(node, i)`: rightmost key of the subtree
under `children[i]`. -/
def getPredecessor : Nat → BTree → Nat → Int
  | 0, _, _ => 0
  | fuel + 1, .mk _ children _, i =>
    let rec go : Nat → BTree → Int
      | 0, _ => 0
      | f + 1, .mk ks cs lf =>
        if lf then ks.getLastD 0 else go f (cs.getLastD dummyBTree)
    go (fuel + 1) (children.getD i dummyBTree)

/-- Models `getSuccessor(node, i)`: leftmost key of the subtree under
`children[i + 1]`. -/
def getSuccessor : Nat → BTree → Nat → Int
  | 0, _, _ => 0
  | fuel + 1, .mk _ children _, i =>
    let rec go : Nat → BTree → Int
      | 0, _ => 0
      | f + 1, .mk ks cs lf =>
        if lf then ks.headD 0 else go f (cs.headD dummyBTree)
    go (fuel + 1) (children.getD (i + 1) dummyBTree)

mutual

/-- Models `deleteFromNode(node, key)` of `bTreeOperations.ts`,
returning the updated node together with the recorded descent
events (key counts of children descended into while searching for a
key not in the current node). -/
def deleteFromNode (t : Nat) : Nat → BTree → Int → BTree × List Nat
  | 0, nd, _ => (nd, [])
  | fuel + 1, .mk keys children leaf, key =>
    let i := firstGE keys key
    match keys.get? i with
    | some k =>
      if k = key then
        if leaf then (.mk (keys.eraseIdx i) children leaf, [])
        else deleteFromInternalNode t fuel (.mk keys children leaf) key i
      else
        deleteDescend t fuel (.mk keys children leaf) key i
    | none =>
      deleteDescend t fuel (.mk keys children leaf) key i

/-- The key-not-in-this-node branch of `deleteFromNode`: optionally
fill an underflowing target child first (re-looking the index up by
key afterwards), then descend and repair any underflow the recursive
deletion left behind. -/
def deleteDescend (t : Nat) : Nat → BTree → Int → Nat → BTree × List Nat
  | 0, nd, _, _ => (nd, [])
  | fuel + 1, .mk keys children leaf, key, i =>
    if leaf then (.mk keys children leaf, [])
    else
      match children.get? i with
      | none => (.mk keys children leaf, [])
      | some child =>
        if child.keys.length < t - 1 then
          match fill t (.mk keys children leaf) i with
          | .mk keys₁ children₁ leaf₁ =>
            let newI := firstGE keys₁ key
            match keys₁.get? newI with
            | some k₁ =>
              if k₁ = key then
                deleteFromInternalNode t fuel (.mk keys₁ children₁ leaf₁) key newI
              else
                deleteDescendGo t fuel (.mk keys₁ children₁ leaf₁) key newI
            | none =>
              deleteDescendGo t fuel (.mk keys₁ children₁ leaf₁) key newI
        else
          deleteDescendGo t fuel (.mk keys children leaf) key i

/-- The guarded recursive descent at the end of the
key-not-in-this-node branch of `deleteFromNode`: record the target
child's key count, recurse, and fill afterwards on underflow. -/
def deleteDescendGo (t : Nat) : Nat → BTree → Int → Nat → BTree × List Nat
  | 0, nd, _, _ => (nd, [])
  | fuel + 1, .mk keys children leaf, key, i =>
    match children.get? i with
    | none => (.mk keys children leaf, [])
    | some child =>
      let res := deleteFromNode t fuel child key
      let node₁ : BTree := .mk keys (children.set i res.1) leaf
      if res.1.keys.length < t - 1 then
        (fill t node₁ i, child.keys.length :: res.2)
      else
        (node₁, child.keys.length :: res.2)

/-- Models `deleteFromInternalNode(node, key, i)`: replace by the
predecessor or successor when the adjacent child has `≥ t` keys, else
merge both children and delete from the merged child. -/
def deleteFromInternalNode (t : Nat) : Nat → BTree → Int → Nat → BTree × List Nat
  | 0, nd, _, _ => (nd, [])
  | fuel + 1, .mk keys children leaf, key, i =>
    if t ≤ (children.getD i dummyBTree).keys.length then
      let pred := getPredecessor (fuel + 1) (.mk keys children leaf) i
      let keys₁ := keys.set i pred
      let res := deleteFromNode t fuel (children.getD i dummyBTree) pred
      let node₁ : BTree := .mk keys₁ (children.set i res.1) leaf
      if res.1.keys.length < t - 1 then (fill t node₁ i, res.2)
      else (node₁, res.2)
    else if t ≤ (children.getD (i + 1) dummyBTree).keys.length then
      let succ := getSuccessor (fuel + 1) (.mk keys children leaf) i
      let keys₁ := keys.set i succ
      let res := deleteFromNode t fuel (children.getD (i + 1) dummyBTree) succ
      let node₁ : BTree := .mk keys₁ (children.set (i + 1) res.1) leaf
      if res.1.keys.length < t - 1 then (fill t node₁ (i + 1), res.2)
      else (node₁, res.2)
    else
      match mergeAt (.mk keys children leaf) i with
      | .mk keys₁ children₁ leaf₁ =>
        let res := deleteFromNode t fuel (children₁.getD i dummyBTree) key
        let node₁ : BTree := .mk keys₁ (children₁.set i res.1) leaf₁
        if i < children₁.length ∧ res.1.keys.length < t - 1 then
          (fill t node₁ i, res.2)
        else (node₁, res.2)

end

/-- Models `deleteSingleValue` of `bTreeOperations.ts`: delete from
the (cloned) root, then promote the sole child of an emptied root (or
drop an emptied leaf root). -/
def deleteSingleValue (t : Nat) (fuel : Nat) (root : BTree) (key : Int) :
    Option BTree × List Nat :=
  let res := deleteFromNode t fuel root key
  match res.1 with
  | .mk [] children leaf =>
    if !leaf && !children.isEmpty then (some (children.headD dummyBTree), res.2)
    else (none, res.2)
  | nd => (some nd, res.2)

/-- Models `deleteBTreeWithSteps`: deduplicate the parsed values, then
delete them one by one while the root exists, concatenating the
recorded descent events. -/
def deleteBTreeWithSteps (t : Nat) (fuel : Nat) (root : Option BTree)
    (values : List Int) : Option BTree × List Nat :=
  (dedupFirst values).foldl
    (fun acc v =>
      match acc.1 with
      | some r =>
        let res := deleteSingleValue t fuel r v
        (res.1, acc.2 ++ res.2)
      | none => acc)
    (root, [])

/-- Minimum-occupancy predicate: every node of the subtree (including
its root) holds at least `t − 1` keys.  A B-Tree is valid in the sense
of claim C5 when every child of the root (i.e. every non-root node)
satisfies this. -/
inductive NodeMin (t : Nat) : BTree → Prop
  | mk {ks : List Int} {cs : List BTree} {lf : Bool} :
      t - 1 ≤ ks.length → (∀ c ∈ cs, NodeMin t c) → NodeMin t (.mk ks cs lf)

theorem NodeMin.keys_len {t : Nat} {c : BTree} (h : NodeMin t c) :
    t - 1 ≤ c.keys.length := by
  cases c with
  | mk ks cs lf => cases h with | mk h1 h2 => exact h1

theorem NodeMin.children_min {t : Nat} {c : BTree} (h : NodeMin t c) :
    ∀ d ∈ c.children, NodeMin t d := by
  cases c with
  | mk ks cs lf => cases h with | mk h1 h2 => exact h2

theorem getD_mem_or (cs : List BTree) (d : BTree) :
    ∀ i, cs.getD i d ∈ cs ∨ cs.getD i d = d := by
  induction cs with
  | nil =>
    intro i
    right
    cases i <;> rfl
  | cons c rest ih =>
    intro i
    cases i with
    | zero => exact Or.inl (by simp)
    | succ n =>
      rcases ih n with h | h
      · exact Or.inl (by simp only [List.getD_cons_succ]; exact List.mem_cons_of_mem _ h)
      · exact Or.inr (by simpa using h)

theorem dummyBTree_children : dummyBTree.children = [] := rfl

/-- Children of any node of the merged-at-`i` node are children of the
original node or children of its children. -/
theorem mergeAt_children_min {t : Nat} {keys : List Int} {children : List BTree}
    {leaf : Bool} {i : Nat} (hyp : ∀ c ∈ children, NodeMin t c) :
    ∀ X ∈ (mergeAt (.mk keys children leaf) i).children,
      ∀ c ∈ X.children, NodeMin t c := by
  intro X hX c hc
  simp only [mergeAt, BTree.children] at hX
  have hX₁ : X ∈ (children.set i
      (BTree.mk
        ((children.getD i dummyBTree).keys ++
          keys.getD i 0 :: (children.getD (i + 1) dummyBTree).keys)
        (if (children.getD i dummyBTree).isLeaf then
          (children.getD i dummyBTree).children
         else
          (children.getD i dummyBTree).children ++
            (children.getD (i + 1) dummyBTree).children)
        (children.getD i dummyBTree).isLeaf)) := (List.eraseIdx_sublist _ _).mem hX
  rcases List.mem_or_eq_of_mem_set hX₁ with hX₂ | hX₂
  · exact (hyp X hX₂).children_min c hc
  · subst hX₂
    simp only [BTree.children] at hc
    have hc' : c ∈ (children.getD i dummyBTree).children ∨
        c ∈ (children.getD (i + 1) dummyBTree).children := by
      by_cases hl : (children.getD i dummyBTree).isLeaf
      · rw [if_pos hl] at hc
        exact Or.inl hc
      · rw [if_neg hl] at hc
        exact (List.mem_append.mp hc).imp id id
    rcases hc' with hc' | hc'
    · rcases getD_mem_or children dummyBTree i with hm | hm
      · exact (hyp _ hm).children_min c hc'
      · rw [hm] at hc'
        simp [dummyBTree, BTree.children] at hc'
    · rcases getD_mem_or children dummyBTree (i + 1) with hm | hm
      · exact (hyp _ hm).children_min c hc'
      · rw [hm] at hc'
        simp [dummyBTree, BTree.children] at hc'

theorem delete_events_ge (t : Nat) : ∀ fuel : Nat,
    (∀ (nd : BTree) (key : Int), (∀ c ∈ nd.children, NodeMin t c) →
        ∀ e ∈ (deleteFromNode t fuel nd key).2, t - 1 ≤ e) ∧
      (∀ (nd : BTree) (key : Int) (i : Nat), (∀ c ∈ nd.children, NodeMin t c) →
        ∀ e ∈ (deleteDescend t fuel nd key i).2, t - 1 ≤ e) ∧
      (∀ (nd : BTree) (key : Int) (i : Nat), (∀ c ∈ nd.children, NodeMin t c) →
        ∀ e ∈ (deleteDescendGo t fuel nd key i).2, t - 1 ≤ e) ∧
      (∀ (nd : BTree) (key : Int) (i : Nat), (∀ c ∈ nd.children, NodeMin t c) →
        ∀ e ∈ (deleteFromInternalNode t fuel nd key i).2, t - 1 ≤ e) := by
  intro fuel
  induction fuel with
  | zero =>
    refine ⟨?_, ?_, ?_, ?_⟩
    · intro nd key _ e he
      simp [deleteFromNode] at he
    · intro nd key i _ e he
      simp [deleteDescend] at he
    · intro nd key i _ e he
      simp [deleteDescendGo] at he
    · intro nd key i _ e he
      simp [deleteFromInternalNode] at he
  | succ fuel ih =>
    obtain ⟨ih1, ih2, ih3, ih4⟩ := ih
    refine ⟨?_, ?_, ?_, ?_⟩
    · rintro ⟨keys, children, leaf⟩ key hyp e he
      simp only [deleteFromNode] at he
      cases hk : keys.get? (firstGE keys key) with
      | some k =>
        simp only [hk] at he
        by_cases hkk : k = key
        · rw [if_pos hkk] at he
          cases leaf with
          | true => simp at he
          | false => exact ih4 _ key _ hyp e he
        · rw [if_neg hkk] at he
          exact ih2 _ key _ hyp e he
      | none =>
        simp only [hk] at he
        exact ih2 _ key _ hyp e he
    · rintro ⟨keys, children, leaf⟩ key i hyp e he
      simp only [deleteDescend] at he
      cases leaf with
      | true => simp at he
      | false =>
        simp only [Bool.false_eq_true, if_false] at he
        cases hc : children.get? i with
        | none => simp only [hc] at he; simp at he
        | some child =>
          simp only [hc] at he
          have hmin : NodeMin t child :=
            hyp child (by simpa [BTree.children] using List.get?_mem hc)
          rw [if_neg (not_lt.mpr hmin.keys_len)] at he
          exact ih3 _ key i hyp e he
    · rintro ⟨keys, children, leaf⟩ key i hyp e he
      simp only [deleteDescendGo] at he
      cases hc : children.get? i with
      | none => simp only [hc] at he; simp at he
      | some child =>
        simp only [hc] at he
        have hmin : NodeMin t child :=
          hyp child (by simpa [BTree.children] using List.get?_mem hc)
        have he' : e ∈ child.keys.length ::
            (deleteFromNode t fuel child key).2 := by
          by_cases hu : (deleteFromNode t fuel child key).1.keys.length < t - 1
          · rwa [if_pos hu] at he
          · rwa [if_neg hu] at he
        rcases List.mem_cons.mp he' with rfl | he''
        · exact hmin.keys_len
        · exact ih1 child key hmin.children_min e he''
    · rintro ⟨keys, children, leaf⟩ key i hyp e he
      simp only [deleteFromInternalNode] at he
      by_cases h1 : t ≤ (children.getD i dummyBTree).keys.length
      · rw [if_pos h1] at he
        have he' : e ∈ (deleteFromNode t fuel (children.getD i dummyBTree)
            (getPredecessor (fuel + 1) (.mk keys children leaf) i)).2 := by
          by_cases hu : (deleteFromNode t fuel (children.getD i dummyBTree)
              (getPredecessor (fuel + 1) (.mk keys children leaf) i)).1.keys.length < t - 1
          · rwa [if_pos hu] at he
          · rwa [if_neg hu] at he
        rcases getD_mem_or children dummyBTree i with hm | hm
        · exact ih1 _ _ (hyp _ hm).children_min e he'
        · rw [hm] at he'
          exact ih1 dummyBTree _ (by simp [dummyBTree, BTree.children]) e he'
      · rw [if_neg h1] at he
        by_cases h2 : t ≤ (children.getD (i + 1) dummyBTree).keys.length
        · rw [if_pos h2] at he
          have he' : e ∈ (deleteFromNode t fuel (children.getD (i + 1) dummyBTree)
              (getSuccessor (fuel + 1) (.mk keys children leaf) i)).2 := by
            by_cases hu : (deleteFromNode t fuel (children.getD (i + 1) dummyBTree)
                (getSuccessor (fuel + 1) (.mk keys children leaf) i)).1.keys.length < t - 1
            · rwa [if_pos hu] at he
            · rwa [if_neg hu] at he
          rcases getD_mem_or children dummyBTree (i + 1) with hm | hm
          · exact ih1 _ _ (hyp _ hm).children_min e he'
          · rw [hm] at he'
            exact ih1 dummyBTree _ (by simp [dummyBTree, BTree.children]) e he'
        · rw [if_neg h2] at he
          rcases hmerge : mergeAt (.mk keys children leaf) i with ⟨keys₁, children₁, leaf₁⟩
          rw [hmerge] at he
          simp only at he
          have hyp' : ∀ c ∈ children, NodeMin t c := by
            simpa [BTree.children] using hyp
          have hchild : ∀ X ∈ children₁, ∀ c ∈ X.children, NodeMin t c := by
            intro X hX
            have hXm : X ∈ (mergeAt (BTree.mk keys children leaf) i).children := by
              rw [hmerge]
              exact hX
            exact mergeAt_children_min hyp' X hXm
          have he' : e ∈ (deleteFromNode t fuel (children₁.getD i dummyBTree) key).2 := by
            by_cases hu : i < children₁.length ∧
                (deleteFromNode t fuel (children₁.getD i dummyBTree) key).1.keys.length < t - 1
            · rwa [if_pos hu] at he
            · rwa [if_neg hu] at he
          rcases getD_mem_or children₁ dummyBTree i with hm | hm
          · exact ih1 _ key (hchild _ hm) e he'
          · rw [hm] at he'
            exact ih1 dummyBTree key (by simp [dummyBTree, BTree.children]) e he'

/-- C5 (counterexample): deleting key 1 from the B-Tree built with
`t = 2` from `1..7` descends from the root `[2, 4]` into the child
`[1]`, which holds only 1 key (< t = 2) at the moment of descent: the
source only tops a child up when it has *fewer than `t − 1`* keys, so
a child at exactly `t − 1` keys is descended into as-is. -/
theorem deleteBTree_descends_below_t :
    ¬ (∀ e ∈ (deleteBTreeWithSteps 2 20
        (some (buildBTree 2 [1, 2, 3, 4, 5, 6, 7])) [1]).2, 2 ≤ e) := by
  decide

/-- C5 (amended): during deletion of a key (`deleteFromNode`, the
recursion behind `deleteBTreeWithSteps`) from a tree all of whose
non-root nodes hold at least `t − 1` keys, every descent into a child
in search of a key not contained in the current node happens when the
target child holds at least `t − 1` keys (the code tops up a child
before descending only when it has fallen below `t − 1` keys). -/
theorem deleteFromNode_descend_keys_ge (t fuel : Nat) (root : BTree) (key : Int)
    (hvalid : ∀ c ∈ root.children, NodeMin t c) :
    ∀ e ∈ (deleteFromNode t fuel root key).2, t - 1 ≤ e :=
  (delete_events_ge t fuel).1 root key hvalid

/-- Witness for C5 (amended) at `t = 2`: deleting 1 from the tree
`[2, 4]` over `[1]`, `[3]`, `[5, 6, 7]`; the single descent is into a
child with exactly 1 = t − 1 key. -/
theorem deleteFromNode_descend_keys_ge_witness :
    (∀ c ∈ (BTree.mk [2, 4]
        [.mk [1] [] true, .mk [3] [] true, .mk [5, 6, 7] [] true]
        false).children, NodeMin 2 c) ∧
      ∀ e ∈ (deleteFromNode 2 20
          (BTree.mk [2, 4]
            [.mk [1] [] true, .mk [3] [] true, .mk [5, 6, 7] [] true]
            false) 1).2, 2 - 1 ≤ e := by
  have hv : ∀ c ∈ (BTree.mk [2, 4]
      [.mk [1] [] true, .mk [3] [] true, .mk [5, 6, 7] [] true]
      false).children, NodeMin 2 c := by
    intro c hc
    simp only [BTree.children, List.mem_cons, List.not_mem_nil, or_false] at hc
    rcases hc with rfl | rfl | rfl <;>
      exact NodeMin.mk (by simp) (by simp)
  exact ⟨hv, deleteFromNode_descend_keys_ge 2 20 _ 1 hv⟩

/-! ## B+Tree engine (store model)

From `bPlusTree.ts` (`buildBPlusTreeWithSteps`,
`insertBPlusTreeWithSteps`, `cloneBPlusTreeNode`, `splitChild`,
`insertNonFull`) and `bPlusTreeTraversals.ts`
(`leaforderBPlusTreeTraversal`).  Because the leaf `next` pointers
alias nodes across the tree, nodes live in an explicit store mapping
addresses (`Nat`) to node records; object creation allocates a fresh
address from a counter.  All recursion is fuel-indexed (decremented on
every call); with ample fuel the model computes exactly what the
source computes. -/

/-- B+Tree node record (`BPlusTreeNode` with the display-only `id`
dropped); `children` and `next` hold store addresses. -/
structure BPNode where
  keys : List Int
  children : List Nat
  isLeaf : Bool
  next : Option Nat
  deriving DecidableEq, Repr

/-- Store of B+Tree nodes: association list from address to record. -/
abbrev BPStore := List (Nat × BPNode)

def lookupBP : BPStore → Nat → Option BPNode
  | [], _ => none
  | (i, nd) :: rest, j => if i = j then some nd else lookupBP rest j

/-- In-place field update of the node at an address (no-op when the
address is dead, which the source never does). -/
def updateBP : BPStore → Nat → BPNode → BPStore
  | [], _, _ => []
  | (i, nd) :: rest, j, nd' =>
    if i = j then (j, nd') :: rest else (i, nd) :: updateBP rest j nd'

mutual

/-- Models `cloneBPlusTreeNode`: deep copy at fresh addresses; the
`next` pointer of every copy is set to null (the source comment says
it will be handled separately, but nothing ever restores it). -/
def cloneBP : Nat → BPStore → Nat → Nat → BPStore × Option Nat × Nat
  | 0, st, _, ctr => (st, none, ctr)
  | fuel + 1, st, nid, ctr =>
    match lookupBP st nid with
    | none => (st, none, ctr)
    | some nd =>
      let r := cloneBPList fuel st nd.children ctr
      ((r.2.2, ⟨nd.keys, r.2.1, nd.isLeaf, none⟩) :: r.1,
        some r.2.2, r.2.2 + 1)

def cloneBPList : Nat → BPStore → List Nat → Nat → BPStore × List Nat × Nat
  | 0, st, _, ctr => (st, [], ctr)
  | _ + 1, st, [], ctr => (st, [], ctr)
  | fuel + 1, st, nid :: rest, ctr =>
    let r1 := cloneBP fuel st nid ctr
    match r1.2.1 with
    | none => cloneBPList fuel r1.1 rest r1.2.2
    | some cid =>
      let r2 := cloneBPList fuel r1.1 rest r1.2.2
      (r2.1, cid :: r2.2.1, r2.2.2)

end

/-- Models `splitChild(parent, index)` of `bPlusTree.ts`: new right
sibling from the upper `t` keys; for a leaf the median key is copied
up and the two leaves are linked via `next`, for an internal node the
median is moved up. -/
def splitChildBP (t : Nat) (st : BPStore) (parentId : Nat) (index : Nat)
    (ctr : Nat) : BPStore × Nat :=
  match lookupBP st parentId with
  | none => (st, ctr)
  | some parent =>
    match parent.children.get? index with
    | none => (st, ctr)
    | some fullChildId =>
      match lookupBP st fullChildId with
      | none => (st, ctr)
      | some fullChild =>
        let newChildId := ctr
        let newChild : BPNode :=
          ⟨fullChild.keys.drop t,
            if fullChild.isLeaf then [] else fullChild.children.drop t,
            fullChild.isLeaf,
            if fullChild.isLeaf then fullChild.next else none⟩
        let fullChild' : BPNode :=
          ⟨if fullChild.isLeaf then fullChild.keys.take t
           else (fullChild.keys.take t).dropLast,
            if fullChild.isLeaf then fullChild.children
            else fullChild.children.take t,
            fullChild.isLeaf,
            if fullChild.isLeaf then some newChildId else fullChild.next⟩
        let midKey :=
          if fullChild.isLeaf then fullChild.keys.getD t 0
          else (fullChild.keys.take t).getLastD 0
        let parent' : BPNode :=
          ⟨parent.keys.insertIdx index midKey,
            parent.children.insertIdx (index + 1) newChildId,
            parent.isLeaf, parent.next⟩
        (updateBP (updateBP ((newChildId, newChild) :: st)
            fullChildId fullChild') parentId parent', ctr + 1)

/-- Models `insertNonFull` of `bPlusTree.ts` over the store. -/
def insertNonFullBP (t : Nat) : Nat → BPStore → Nat → Int → Nat → BPStore × Nat
  | 0, st, _, _, ctr => (st, ctr)
  | fuel + 1, st, nid, key, ctr =>
    match lookupBP st nid with
    | none => (st, ctr)
    | some nd =>
      if nd.isLeaf then
        (updateBP st nid { nd with keys := jsSortedInsert nd.keys key }, ctr)
      else
        let i := firstGE nd.keys key
        match nd.children.get? i with
        | none => (st, ctr)
        | some childId =>
          match lookupBP st childId with
          | none => (st, ctr)
          | some child =>
            if child.keys.length = 2 * t - 1 then
              let r := splitChildBP t st nid i ctr
              match lookupBP r.1 nid with
              | none => r
              | some nd₁ =>
                let i₁ := if nd₁.keys.getD i key < key then i + 1 else i
                match nd₁.children.get? i₁ with
                | none => r
                | some childId₁ => insertNonFullBP t fuel r.1 childId₁ key r.2
            else
              insertNonFullBP t fuel st childId key ctr

/-- Models `insertBPlusTreeWithSteps`: clone the start root (wiping
all `next` pointers), split a full root under a fresh root, insert
non-full. -/
def insertBPlusTreeWithSteps (t : Nat) (fuel : Nat) (st : BPStore)
    (rootId : Nat) (key : Int) (ctr : Nat) : BPStore × Nat × Nat :=
  let c := cloneBP fuel st rootId ctr
  match c.2.1 with
  | none => (c.1, rootId, c.2.2)
  | some rid =>
    match lookupBP c.1 rid with
    | none => (c.1, rid, c.2.2)
    | some rootNd =>
      if rootNd.keys.length = 2 * t - 1 then
        let newRootId := c.2.2
        let st₁ : BPStore := (newRootId, ⟨[], [rid], false, none⟩) :: c.1
        let s := splitChildBP t st₁ newRootId 0 (newRootId + 1)
        let r := insertNonFullBP t fuel s.1 newRootId key s.2
        (r.1, newRootId, r.2)
      else
        let r := insertNonFullBP t fuel c.1 rid key c.2.2
        (r.1, rid, r.2)

/-- Models `buildBPlusTreeWithSteps` on a non-empty value list:
create an empty leaf root, then insert the deduplicated values one by
one. -/
def buildBPlusTreeWithSteps (t : Nat) (fuel : Nat) (values : List Int) :
    BPStore × Nat × Nat :=
  (dedupFirst values).foldl
    (fun acc v => insertBPlusTreeWithSteps t fuel acc.1 acc.2.1 v acc.2.2)
    ([(0, ⟨[], [], true, none⟩)], 0, 1)

/-- Models `collectLeaves` of `leaforderBPlusTreeTraversal`: leaf
addresses in left-to-right child-descent order. -/
def collectLeavesBP : Nat → BPStore → Nat → List Nat
  | 0, _, _ => []
  | fuel + 1, st, nid =>
    match lookupBP st nid with
    | none => []
    | some nd =>
      if nd.isLeaf then [nid]
      else (nd.children.map (collectLeavesBP fuel st)).flatten

/-- The key sequence emitted by `leaforderBPlusTreeTraversal` (the
`allLeafKeys` accumulator of the source): each collected leaf's keys
in order. -/
def leaforderKeys (fuel : Nat) (st : BPStore) (root : Nat) : List Int :=
  ((collectLeavesBP fuel st root).map
    (fun nid => ((lookupBP st nid).map BPNode.keys).getD [])).flatten

/-- Modelled from the spec: the keys of the leaves in left-to-right
order obtained by descending internal children (the amended reading
of the leaf-order traversal). -/
def dfsLeafKeys : Nat → BPStore → Nat → List Int
  | 0, _, _ => []
  | fuel + 1, st, nid =>
    match lookupBP st nid with
    | none => []
    | some nd =>
      if nd.isLeaf then nd.keys
      else (nd.children.map (dfsLeafKeys fuel st)).flatten

/-- Modelled from the spec: the leftmost leaf of the tree (descend
first children). -/
def leftmostLeafBP : Nat → BPStore → Nat → Option Nat
  | 0, _, _ => none
  | fuel + 1, st, nid =>
    match lookupBP st nid with
    | none => none
    | some nd =>
      if nd.isLeaf then some nid
      else
        match nd.children.head? with
        | some c => leftmostLeafBP fuel st c
        | none => none

/-- Modelled from the spec: the key sequence visited by starting at a
leaf and following `next` pointers to the end of the chain. -/
def chainKeys : Nat → BPStore → Option Nat → List Int
  | 0, _, _ => []
  | _ + 1, _, none => []
  | fuel + 1, st, some nid =>
    match lookupBP st nid with
    | none => []
    | some nd => nd.keys ++ chainKeys fuel st nd.next

/-- Modelled from the spec: the next-pointer walk of the claim —
start at the leftmost leaf and follow `next` pointers, emitting every
key. -/
def nextWalkKeys (fuel : Nat) (st : BPStore) (root : Nat) : List Int :=
  chainKeys fuel st (leftmostLeafBP fuel st root)

/-- C3 (code bug evidence): building a B+Tree with `t = 3` from
`1..7`, the next-pointer walk from the leftmost leaf of the returned
root visits only `[1, 2, 3]`, omitting 4–7: `cloneBPlusTreeNode`
nulls every `next` pointer on every per-insert clone (its comment
says the pointer will be handled separately) and nothing ever
relinks the chain, so only links created by splits during the very
last insertion survive. -/
theorem bplus_next_chain_broken :
    nextWalkKeys 200 (buildBPlusTreeWithSteps 3 200 [1, 2, 3, 4, 5, 6, 7]).1
        (buildBPlusTreeWithSteps 3 200 [1, 2, 3, 4, 5, 6, 7]).2.1 = [1, 2, 3] ∧
      ¬ (∀ v ∈ dedupFirst [1, 2, 3, 4, 5, 6, 7],
          v ∈ nextWalkKeys 200
            (buildBPlusTreeWithSteps 3 200 [1, 2, 3, 4, 5, 6, 7]).1
            (buildBPlusTreeWithSteps 3 200 [1, 2, 3, 4, 5, 6, 7]).2.1) := by
  constructor
  · decide
  · decide

/-- C4 (counterexample): on the root built with `t = 3` from `1..7`,
`leaforderBPlusTreeTraversal` emits `[1..7]` while the next-pointer
walk from the leftmost leaf yields `[1, 2, 3]` — the traversal is
not the next-pointer walk the claim describes. -/
theorem leaforder_differs_from_next_walk :
    leaforderKeys 200 (buildBPlusTreeWithSteps 3 200 [1, 2, 3, 4, 5, 6, 7]).1
        (buildBPlusTreeWithSteps 3 200 [1, 2, 3, 4, 5, 6, 7]).2.1 ≠
      nextWalkKeys 200 (buildBPlusTreeWithSteps 3 200 [1, 2, 3, 4, 5, 6, 7]).1
        (buildBPlusTreeWithSteps 3 200 [1, 2, 3, 4, 5, 6, 7]).2.1 := by
  decide

/-- C4 (amended): for every B+Tree root,
`leaforderBPlusTreeTraversal` emits exactly the keys of the leaves in
left-to-right order obtained by descending internal children
(`collectLeaves`), not a next-pointer walk. -/
theorem leaforderKeys_eq_dfsLeafKeys :
    ∀ (fuel : Nat) (st : BPStore) (nid : Nat),
      leaforderKeys fuel st nid = dfsLeafKeys fuel st nid := by
  intro fuel
  induction fuel with
  | zero =>
    intro st nid
    rfl
  | succ fuel ih =>
    intro st nid
    rw [leaforderKeys, collectLeavesBP, dfsLeafKeys]
    cases h : lookupBP st nid with
    | none => simp
    | some nd =>
      by_cases hl : nd.isLeaf
      · simp [hl, h]
      · simp only [hl, if_false, Bool.false_eq_true]
        have haux : ∀ cids : List Nat,
            ((((cids.map (collectLeavesBP fuel st)).flatten).map
              (fun nid => ((lookupBP st nid).map BPNode.keys).getD [])).flatten) =
              (cids.map (dfsLeafKeys fuel st)).flatten := by
          intro cids
          induction cids with
          | nil => rfl
          | cons c rest ihc =>
            simp only [List.map_cons, List.flatten_cons, List.map_append,
              List.flatten_append, ihc]
            have := ih st c
            rw [leaforderKeys] at this
            rw [this]
        exact haux nd.children

/-! ## Red-Black engine (store model)

From `redBlackOperations.ts` (`insertRBWithSteps`, `fixViolations` /
`fixViolationsWithSteps`, `rotateLeft`, `rotateRight`,
`deleteRBWithSteps`, `fixDoubleBlack`, `getMinValueNode`,
`convertToRBTree`, `cloneForVisualization`).  Nodes carry parent
back-references, so they live in an explicit store; every JS field
write is modelled as a read-update of the record at that address,
preserving the statement order of the source. -/

inductive RBColor where
  | red : RBColor
  | black : RBColor
  deriving DecidableEq, Repr

/-- Red-Black node record (`RBTreeNode` with the display-only `id`
dropped); `left`/`right`/`parent` hold store addresses. -/
structure RBNode where
  value : Int
  color : RBColor
  left : Option Nat
  right : Option Nat
  parent : Option Nat
  deriving DecidableEq, Repr

abbrev RBStore := List (Nat × RBNode)

def lookupRB : RBStore → Nat → Option RBNode
  | [], _ => none
  | (i, nd) :: rest, j => if i = j then some nd else lookupRB rest j

def updateRB : RBStore → Nat → RBNode → RBStore
  | [], _, _ => []
  | (i, nd) :: rest, j, nd' =>
    if i = j then (j, nd') :: rest else (i, nd) :: updateRB rest j nd'

def rbSetLeft (st : RBStore) (i : Nat) (v : Option Nat) : RBStore :=
  match lookupRB st i with
  | some nd => updateRB st i { nd with left := v }
  | none => st

def rbSetRight (st : RBStore) (i : Nat) (v : Option Nat) : RBStore :=
  match lookupRB st i with
  | some nd => updateRB st i { nd with right := v }
  | none => st

def rbSetParent (st : RBStore) (i : Nat) (v : Option Nat) : RBStore :=
  match lookupRB st i with
  | some nd => updateRB st i { nd with parent := v }
  | none => st

def rbSetColor (st : RBStore) (i : Nat) (c : RBColor) : RBStore :=
  match lookupRB st i with
  | some nd => updateRB st i { nd with color := c }
  | none => st

def rbSetValue (st : RBStore) (i : Nat) (v : Int) : RBStore :=
  match lookupRB st i with
  | some nd => updateRB st i { nd with value := v }
  | none => st

def rbLeftOf (st : RBStore) (i : Nat) : Option Nat :=
  (lookupRB st i).bind RBNode.left

def rbRightOf (st : RBStore) (i : Nat) : Option Nat :=
  (lookupRB st i).bind RBNode.right

def rbParentOf (st : RBStore) (i : Nat) : Option Nat :=
  (lookupRB st i).bind RBNode.parent

/-- The red-color test on an optional reference (false for null). -/
def rbIsRed (st : RBStore) : Option Nat → Bool
  | none => false
  | some i =>
    match lookupRB st i with
    | some nd => nd.color = .red
    | none => false

/-- Models `rotateLeft(root, node)`: returns the updated store and
root address. -/
def rotateLeftRB (st0 : RBStore) (rootId nodeId : Nat) : RBStore × Nat :=
  match rbRightOf st0 nodeId with
  | none => (st0, rootId)
  | some rcId =>
    let rcLeft := rbLeftOf st0 rcId
    let st1 := rbSetRight st0 nodeId rcLeft
    let st2 :=
      match rcLeft with
      | some rl => rbSetParent st1 rl (some nodeId)
      | none => st1
    let nodeParent := rbParentOf st2 nodeId
    let st3 := rbSetParent st2 rcId nodeParent
    let r4 : RBStore × Nat :=
      match nodeParent with
      | none => (st3, rcId)
      | some p =>
        if rbLeftOf st3 p = some nodeId then (rbSetLeft st3 p (some rcId), rootId)
        else (rbSetRight st3 p (some rcId), rootId)
    let st5 := rbSetLeft r4.1 rcId (some nodeId)
    (rbSetParent st5 nodeId (some rcId), r4.2)

/-- Models `rotateRight(root, node)`. -/
def rotateRightRB (st0 : RBStore) (rootId nodeId : Nat) : RBStore × Nat :=
  match rbLeftOf st0 nodeId with
  | none => (st0, rootId)
  | some lcId =>
    let lcRight := rbRightOf st0 lcId
    let st1 := rbSetLeft st0 nodeId lcRight
    let st2 :=
      match lcRight with
      | some lr => rbSetParent st1 lr (some nodeId)
      | none => st1
    let nodeParent := rbParentOf st2 nodeId
    let st3 := rbSetParent st2 lcId nodeParent
    let r4 : RBStore × Nat :=
      match nodeParent with
      | none => (st3, lcId)
      | some p =>
        if rbRightOf st3 p = some nodeId then (rbSetRight st3 p (some lcId), rootId)
        else (rbSetLeft st3 p (some lcId), rootId)
    let st5 := rbSetRight r4.1 lcId (some nodeId)
    (rbSetParent st5 nodeId (some lcId), r4.2)

/-- The `while (current.parent is red)` fixup loop of
`fixViolationsWithSteps` (the final forcing of the root to black is
done by the caller model, as in the source). -/
def fixLoopRB : Nat → RBStore → Nat → Nat → RBStore × Nat
  | 0, st, root, _ => (st, root)
  | fuel + 1, st, root, cur =>
    match rbParentOf st cur with
    | none => (st, root)
    | some pId =>
      if rbIsRed st (some pId) then
        match rbParentOf st pId with
        | none => (st, root)
        | some gId =>
          if rbLeftOf st gId = some pId then
            let uncle := rbRightOf st gId
            if rbIsRed st uncle then
              let st1 := rbSetColor st pId .black
              let st2 :=
                match uncle with
                | some u => rbSetColor st1 u .black
                | none => st1
              let st3 := rbSetColor st2 gId .red
              fixLoopRB fuel st3 root gId
            else
              let r1 : RBStore × Nat × Nat :=
                if rbRightOf st pId = some cur then
                  let r := rotateLeftRB st root pId
                  (r.1, r.2, pId)
                else (st, root, cur)
              let cur₁ := r1.2.2
              let st2 :=
                match rbParentOf r1.1 cur₁ with
                | some p₁ => rbSetColor r1.1 p₁ .black
                | none => r1.1
              let st3 := rbSetColor st2 gId .red
              let r2 := rotateRightRB st3 r1.2.1 gId
              fixLoopRB fuel r2.1 r2.2 cur₁
          else
            let uncle := rbLeftOf st gId
            if rbIsRed st uncle then
              let st1 := rbSetColor st pId .black
              let st2 :=
                match uncle with
                | some u => rbSetColor st1 u .black
                | none => st1
              let st3 := rbSetColor st2 gId .red
              fixLoopRB fuel st3 root gId
            else
              let r1 : RBStore × Nat × Nat :=
                if rbLeftOf st pId = some cur then
                  let r := rotateRightRB st root pId
                  (r.1, r.2, pId)
                else (st, root, cur)
              let cur₁ := r1.2.2
              let st2 :=
                match rbParentOf r1.1 cur₁ with
                | some p₁ => rbSetColor r1.1 p₁ .black
                | none => r1.1
              let st3 := rbSetColor st2 gId .red
              let r2 := rotateLeftRB st3 r1.2.1 gId
              fixLoopRB fuel r2.1 r2.2 cur₁
      else (st, root)

/-- The descent loop of `insertRBWithSteps`: the last node visited
(where the walk stops at a duplicate or falls off a null child). -/
def rbFindParent : Nat → RBStore → Nat → Int → Nat
  | 0, _, cur, _ => cur
  | fuel + 1, st, cur, v =>
    match lookupRB st cur with
    | none => cur
    | some nd =>
      if v = nd.value then cur
      else if v < nd.value then
        match nd.left with
        | some l => rbFindParent fuel st l v
        | none => cur
      else
        match nd.right with
        | some r => rbFindParent fuel st r v
        | none => cur

/-- One value of the insertion loop of `insertRBWithSteps`: BST
attach of a red node (black root for an empty tree), duplicate skip,
fixup, root forced black. -/
def insertRBValue (fuel : Nat) (st : RBStore) (root : Option Nat) (ctr : Nat)
    (v : Int) : RBStore × Option Nat × Nat :=
  match root with
  | none =>
    ((ctr, ⟨v, .black, none, none, none⟩) :: st, some ctr, ctr + 1)
  | some rootId =>
    let pId := rbFindParent fuel st rootId v
    match lookupRB st pId with
    | none => (st, some rootId, ctr)
    | some pNd =>
      if v = pNd.value then (st, some rootId, ctr)
      else
        let newId := ctr
        let st1 := (newId, ⟨v, .red, none, none, some pId⟩) :: st
        let st2 :=
          if v < pNd.value then rbSetLeft st1 pId (some newId)
          else rbSetRight st1 pId (some newId)
        let r := fixLoopRB fuel st2 rootId newId
        (rbSetColor r.1 r.2 .black, some r.2, ctr + 1)

/-- Models `insertRBWithSteps` from an empty tree: insert the
deduplicated values one after the other. -/
def insertRBValues (fuel : Nat) (values : List Int) :
    RBStore × Option Nat × Nat :=
  (dedupFirst values).foldl
    (fun acc v => insertRBValue fuel acc.1 acc.2.1 acc.2.2 v)
    ([], none, 0)

/-- Plain colored tree (`cloneForVisualization` output, id dropped). -/
inductive CTree where
  | nil : CTree
  | node (color : RBColor) (value : Int) (left right : CTree) : CTree
  deriving DecidableEq, Repr

/-- Models `cloneForVisualization`: read the colored tree out of the
store. -/
def toCTree : Nat → RBStore → Option Nat → CTree
  | 0, _, _ => .nil
  | _ + 1, _, none => .nil
  | fuel + 1, st, some i =>
    match lookupRB st i with
    | none => .nil
    | some nd => .node nd.color nd.value (toCTree fuel st nd.left) (toCTree fuel st nd.right)

/-- Models `convertToRBTree`: rebuild a store (with parent
back-references) from a colored tree. -/
def convertToRBTree (ct : CTree) (parent : Option Nat) (ctr : Nat)
    (st : RBStore) : RBStore × Option Nat × Nat :=
  match ct with
  | .nil => (st, none, ctr)
  | .node col v l r =>
    let myId := ctr
    let st1 : RBStore := (myId, ⟨v, col, none, none, parent⟩) :: st
    let r1 := convertToRBTree l (some myId) (ctr + 1) st1
    let r2 := convertToRBTree r (some myId) r1.2.2 r1.1
    (rbSetRight (rbSetLeft r2.1 myId r1.2.1) myId r2.2.1, some myId, r2.2.2)

/-- Models `getMinValueNode`: leftmost node under `i`. -/
def rbMinNode : Nat → RBStore → Nat → Nat
  | 0, _, i => i
  | fuel + 1, st, i =>
    match rbLeftOf st i with
    | some l => rbMinNode fuel st l
    | none => i

/-- Models the search loop of `deleteRBWithSteps`. -/
def rbSearch : Nat → RBStore → Option Nat → Int → Option Nat
  | 0, _, _, _ => none
  | fuel + 1, st, some i, v =>
    match lookupRB st i with
    | none => none
    | some nd =>
      if v = nd.value then some i
      else if v < nd.value then rbSearch fuel st nd.left v
      else rbSearch fuel st nd.right v
  | _ + 1, _, none, _ => none

/-- Models `fixDoubleBlack(root, node, parent)`; faithfully returns
the root unchanged when `parent` is null (which the caller passes
whenever the removed black node had no replacement child). -/
def fixDoubleBlack : Nat → RBStore → Nat → Option Nat → Option Nat →
    RBStore × Nat
  | 0, st, root, _, _ => (st, root)
  | fuel + 1, st, root, nodeOpt, parentOpt =>
    if nodeOpt = some root then (st, root)
    else
      match parentOpt with
      | none => (st, root)
      | some pId =>
        let sibling :=
          if nodeOpt = rbLeftOf st pId then rbRightOf st pId
          else rbLeftOf st pId
        match sibling with
        | none => fixDoubleBlack fuel st root (some pId) (rbParentOf st pId)
        | some sId =>
          if rbIsRed st (some sId) then
            let st1 := rbSetColor st pId .red
            let st2 := rbSetColor st1 sId .black
            let r :=
              if rbLeftOf st2 pId = some sId then rotateRightRB st2 root pId
              else rotateLeftRB st2 root pId
            fixDoubleBlack fuel r.1 r.2 nodeOpt (some pId)
          else
            let leftNephew := rbLeftOf st sId
            let rightNephew := rbRightOf st sId
            if rbIsRed st leftNephew || rbIsRed st rightNephew then
              if rbLeftOf st pId = some sId then
                if rbIsRed st leftNephew then
                  let st1 :=
                    match leftNephew, lookupRB st sId, lookupRB st pId with
                    | some ln, some sNd, some pNd =>
                      rbSetColor (rbSetColor (rbSetColor st ln sNd.color)
                        sId pNd.color) pId .black
                    | _, _, _ => st
                  rotateRightRB st1 root pId
                else
                  let st1 :=
                    match rightNephew, lookupRB st pId with
                    | some rn, some pNd =>
                      rbSetColor (rbSetColor st rn pNd.color) pId .black
                    | _, _ => st
                  let r1 := rotateLeftRB st1 root sId
                  rotateRightRB r1.1 r1.2 pId
              else
                if rbIsRed st rightNephew then
                  let st1 :=
                    match rightNephew, lookupRB st sId, lookupRB st pId with
                    | some rn, some sNd, some pNd =>
                      rbSetColor (rbSetColor (rbSetColor st rn sNd.color)
                        sId pNd.color) pId .black
                    | _, _, _ => st
                  rotateLeftRB st1 root pId
                else
                  let st1 :=
                    match leftNephew, lookupRB st pId with
                    | some ln, some pNd =>
                      rbSetColor (rbSetColor st ln pNd.color) pId .black
                    | _, _ => st
                  let r1 := rotateRightRB st1 root sId
                  rotateLeftRB r1.1 r1.2 pId
            else
              let st1 := rbSetColor st sId .red
              if rbIsRed st1 (some pId) then
                (rbSetColor st1 pId .black, root)
              else
                fixDoubleBlack fuel st1 root (some pId) (rbParentOf st1 pId)

/-- Models `deleteRBWithSteps` for one value on a colored tree:
convert to a parent-linked store, BST delete with successor
replacement, double-black fixup (with the `replacement?.parent`
argument exactly as the source passes it), root forced black, and
the result read back as a colored tree. -/
def deleteRBWithSteps (fuel : Nat) (ct : CTree) (v : Int) : CTree :=
  let conv := convertToRBTree ct none 0 []
  match conv.2.1 with
  | none => ct
  | some rootId =>
    let st := conv.1
    match rbSearch fuel st (some rootId) v with
    | none => ct
    | some delId =>
      match lookupRB st delId with
      | none => ct
      | some delNd =>
        let res : RBStore × Nat × RBColor × Option Nat :=
          match delNd.left, delNd.right with
          | none, _ =>
            let replacement := delNd.right
            let r1 : RBStore × Nat :=
              match delNd.parent with
              | none =>
                match replacement with
                | some rep => (rbSetParent st rep none, rep)
                | none => (st, rootId)
              | some pId =>
                let st1 :=
                  if rbLeftOf st pId = some delId then
                    rbSetLeft st pId replacement
                  else rbSetRight st pId replacement
                let st2 :=
                  match replacement with
                  | some rep => rbSetParent st1 rep delNd.parent
                  | none => st1
                (st2, rootId)
            (r1.1, r1.2, delNd.color, replacement)
          | some _, none =>
            let replacement := delNd.left
            let r1 : RBStore × Nat :=
              match delNd.parent with
              | none =>
                match replacement with
                | some rep => (rbSetParent st rep none, rep)
                | none => (st, rootId)
              | some pId =>
                let st1 :=
                  if rbLeftOf st pId = some delId then
                    rbSetLeft st pId replacement
                  else rbSetRight st pId replacement
                let st2 :=
                  match replacement with
                  | some rep => rbSetParent st1 rep delNd.parent
                  | none => st1
                (st2, rootId)
            (r1.1, r1.2, delNd.color, replacement)
          | some _, some rId =>
            let succId := rbMinNode fuel st rId
            let succColor :=
              match lookupRB st succId with
              | some s => s.color
              | none => .black
            let replacement := rbRightOf st succId
            let st1 := rbSetValue st delId
              (match lookupRB st succId with
                | some s => s.value
                | none => delNd.value)
            let st2 :=
              if rbParentOf st1 succId = some delId then
                let sA := rbSetRight st1 delId replacement
                match replacement with
                | some rep => rbSetParent sA rep (some delId)
                | none => sA
              else
                match rbParentOf st1 succId with
                | some spId =>
                  let sA := rbSetLeft st1 spId replacement
                  match replacement with
                  | some rep => rbSetParent sA rep (some spId)
                  | none => sA
                | none => st1
            (st2, rootId, succColor, replacement)
        let st₃ := res.1
        let root₃ := res.2.1
        let nodeColor := res.2.2.1
        let replacement := res.2.2.2
        let fixed : RBStore × Nat :=
          if nodeColor = .black then
            if rbIsRed st₃ replacement then
              match replacement with
              | some rep => (rbSetColor st₃ rep .black, root₃)
              | none => (st₃, root₃)
            else
              fixDoubleBlack fuel st₃ root₃ replacement
                (match replacement with
                  | some rep => rbParentOf st₃ rep
                  | none => none)
          else (st₃, root₃)
        toCTree fuel (rbSetColor fixed.1 fixed.2 .black) (some fixed.2)

/-- The colored tree returned by the model of `insertRBWithSteps`
from an empty tree. -/
def insertRBTree (fuel : Nat) (values : List Int) : CTree :=
  let r := insertRBValues fuel values
  toCTree fuel r.1 r.2.1

/-- Black-node count of every root-to-null path: `some n` when all
paths agree, `none` on a violation. -/
def blackCount : CTree → Option Nat
  | .nil => some 0
  | .node c _ l r =>
    match blackCount l, blackCount r with
    | some a, some b =>
      if a = b then some (a + (if c = .black then 1 else 0)) else none
    | _, _ => none

def noRedRed : CTree → Bool
  | .nil => true
  | .node c _ l r =>
    (match c, l, r with
      | .red, .node .red _ _ _, _ => false
      | .red, _, .node .red _ _ _ => false
      | _, _, _ => true)
      && noRedRed l && noRedRed r

def rootIsBlack : CTree → Bool
  | .nil => true
  | .node c _ _ _ => c = .black

/-- C2 (code bug evidence): inserting `1, 2, 3, 4` yields the valid
Red-Black tree `2B (1B) (3B (· 4R))`, but `deleteRBWithSteps` of the
black leaf 1 returns `2B (·) (3B (· 4R))`, whose root-to-null paths
have unequal black counts: the physically removed black node has no
replacement child, so the fixup is invoked as
`fixDoubleBlack(root, null, replacement?.parent = null)` and returns
immediately, leaving the double-black deficiency unresolved. -/
theorem deleteRB_black_count_broken :
    insertRBTree 50 [1, 2, 3, 4] =
        .node .black 2 (.node .black 1 .nil .nil)
          (.node .black 3 .nil (.node .red 4 .nil .nil)) ∧
      blackCount (insertRBTree 50 [1, 2, 3, 4]) = some 2 ∧
      deleteRBWithSteps 50 (insertRBTree 50 [1, 2, 3, 4]) 1 =
        .node .black 2 .nil (.node .black 3 .nil (.node .red 4 .nil .nil)) ∧
      blackCount (deleteRBWithSteps 50 (insertRBTree 50 [1, 2, 3, 4]) 1) =
        none := by
  refine ⟨?_, ?_, ?_, ?_⟩ <;> decide

/-! ## Frame effects (store models of `insertWithSteps` and
`insertTrieWithSteps`)

From `bstOperations.ts` (`insertWithSteps`, `insertSingleValue`,
`cloneTree`) and `trieOperations.ts` (`insertTrieWithSteps`,
`insertWordWithSteps`).  To talk about mutation of the caller's
structure, nodes live in stores keyed by address; object creation
allocates the current counter value. -/

/-- BST node record over addresses (`TreeNode`, display-only `id`
dropped). -/
structure BNodeH where
  value : Int
  left : Option Nat
  right : Option Nat
  deriving DecidableEq, Repr

abbrev BStore := List (Nat × BNodeH)

def lookupB : BStore → Nat → Option BNodeH
  | [], _ => none
  | (i, nd) :: rest, j => if i = j then some nd else lookupB rest j

def updateB : BStore → Nat → BNodeH → BStore
  | [], _, _ => []
  | (i, nd) :: rest, j, nd' =>
    if i = j then (j, nd') :: rest else (i, nd) :: updateB rest j nd'

/-- Models `cloneTree` of `bstOperations.ts`: deep copy at fresh
addresses (left subtree first, then right, then the node itself). -/
def cloneB : Nat → BStore → Option Nat → Nat → BStore × Option Nat × Nat
  | 0, st, _, ctr => (st, none, ctr)
  | _ + 1, st, none, ctr => (st, none, ctr)
  | fuel + 1, st, some nid, ctr =>
    match lookupB st nid with
    | none => (st, none, ctr)
    | some nd =>
      let rl := cloneB fuel st nd.left ctr
      let rr := cloneB fuel rl.1 nd.right rl.2.2
      ((rr.2.2, ⟨nd.value, rl.2.1, rr.2.1⟩) :: rr.1, some rr.2.2, rr.2.2 + 1)

/-- Models the descent loop of `insertSingleValue`: walk by
comparison from `cur`, skip a duplicate, attach a fresh node at the
null slot (mutating the parent found by the walk). -/
def bstWalkInsert : Nat → BStore → Nat → Int → Nat → BStore × Nat
  | 0, st, _, _, ctr => (st, ctr)
  | fuel + 1, st, cur, v, ctr =>
    match lookupB st cur with
    | none => (st, ctr)
    | some nd =>
      if v = nd.value then (st, ctr)
      else if v < nd.value then
        match nd.left with
        | some l => bstWalkInsert fuel st l v ctr
        | none =>
          ((ctr, ⟨v, none, none⟩) :: updateB st cur { nd with left := some ctr },
            ctr + 1)
      else
        match nd.right with
        | some r => bstWalkInsert fuel st r v ctr
        | none =>
          ((ctr, ⟨v, none, none⟩) :: updateB st cur { nd with right := some ctr },
            ctr + 1)

/-- Models `insertSingleValue`: fresh root for an empty tree,
otherwise clone the start root and insert into the clone. -/
def insertSingleValueH (fuel : Nat) (st : BStore) (root : Option Nat) (v : Int)
    (ctr : Nat) : BStore × Option Nat × Nat :=
  match root with
  | none => ((ctr, ⟨v, none, none⟩) :: st, some ctr, ctr + 1)
  | some rootId =>
    let c := cloneB fuel st (some rootId) ctr
    match c.2.1 with
    | none => (c.1, none, c.2.2)
    | some rid =>
      let r := bstWalkInsert fuel c.1 rid v c.2.2
      (r.1, some rid, r.2)

/-- Models `insertWithSteps` of `bstOperations.ts`: an empty parsed
value list returns the start root untouched; otherwise the start root
is cloned once and each value inserted by `insertSingleValue` (which
clones again). -/
def insertWithStepsH (fuel : Nat) (st : BStore) (root : Option Nat)
    (values : List Int) (ctr : Nat) : BStore × Option Nat × Nat :=
  let vals := dedupFirst values
  if vals.isEmpty then (st, root, ctr)
  else
    let c := cloneB fuel st root ctr
    vals.foldl
      (fun acc v => insertSingleValueH fuel acc.1 acc.2.1 v acc.2.2)
      (c.1, c.2.1, c.2.2)

/-- Trie node record over addresses (`TrieNode`, display-only `id`
and `char` dropped; `children` maps characters to addresses). -/
structure TNode where
  isEnd : Bool
  children : List (Char × Nat)
  deriving DecidableEq, Repr

abbrev TStore := List (Nat × TNode)

def lookupT : TStore → Nat → Option TNode
  | [], _ => none
  | (i, nd) :: rest, j => if i = j then some nd else lookupT rest j

def updateT : TStore → Nat → TNode → TStore
  | [], _, _ => []
  | (i, nd) :: rest, j, nd' =>
    if i = j then (j, nd') :: rest else (i, nd) :: updateT rest j nd'

def findChildT : List (Char × Nat) → Char → Option Nat
  | [], _ => none
  | (c', i) :: rest, c => if c' = c then some i else findChildT rest c

/-- Models `insertWordWithSteps` of `trieOperations.ts`: walk the word
from the given node, creating children where absent — mutating the
nodes of the caller's trie in place (no clone anywhere). -/
def insertWordH (st : TStore) (cur : Nat) (w : List Char) (ctr : Nat) :
    TStore × Nat :=
  match w with
  | [] =>
    match lookupT st cur with
    | some nd => (updateT st cur { nd with isEnd := true }, ctr)
    | none => (st, ctr)
  | c :: rest =>
    match lookupT st cur with
    | none => (st, ctr)
    | some nd =>
      match findChildT nd.children c with
      | some childId => insertWordH st childId rest ctr
      | none =>
        let newId := ctr
        let st1 : TStore := (newId, ⟨false, []⟩) :: st
        let st2 := updateT st1 cur { nd with children := nd.children ++ [(c, newId)] }
        insertWordH st2 newId rest (ctr + 1)

/-- Models `insertTrieWithSteps`: allocate a root only when the input
root is null, then run `insertWordWithSteps` for each word directly
on the caller's nodes and return the same root. -/
def insertTrieWithStepsH (st : TStore) (root : Option Nat)
    (words : List (List Char)) (ctr : Nat) : TStore × Option Nat × Nat :=
  match words with
  | [] => (st, root, ctr)
  | _ =>
    let init : TStore × Nat × Nat :=
      match root with
      | none => ((ctr, ⟨false, []⟩) :: st, ctr, ctr + 1)
      | some r => (st, r, ctr)
    let res := words.foldl
      (fun acc w => insertWordH acc.1 init.2.1 w acc.2)
      (init.1, init.2.2)
    (res.1, some init.2.1, res.2)

/-- All addresses reachable from the given reference are `≥ lo` (the
shape of a tree freshly cloned with the counter at `lo`). -/
inductive HiTree (st : BStore) (lo : Nat) : Option Nat → Prop
  | nil : HiTree st lo Option.none
  | node {i : Nat} {nd : BNodeH} : lo ≤ i → lookupB st i = Option.some nd →
      HiTree st lo nd.left → HiTree st lo nd.right → HiTree st lo (Option.some i)

theorem HiTree.mono {st st' : BStore} {lo : Nat} {r : Option Nat}
    (hext : ∀ i nd, lookupB st i = some nd → lookupB st' i = some nd)
    (h : HiTree st lo r) : HiTree st' lo r := by
  induction h with
  | nil => exact HiTree.nil
  | node hle hlk _ _ ihl ihr => exact HiTree.node hle (hext _ _ hlk) ihl ihr

theorem HiTree.of_le {st : BStore} {lo lo' : Nat} {r : Option Nat}
    (hlo : lo' ≤ lo) (h : HiTree st lo r) : HiTree st lo' r := by
  induction h with
  | nil => exact HiTree.nil
  | node hle hlk _ _ ihl ihr => exact HiTree.node (le_trans hlo hle) hlk ihl ihr

theorem lookupB_mem (st : BStore) (i : Nat) (nd : BNodeH)
    (h : lookupB st i = some nd) : (i, nd) ∈ st := by
  induction st with
  | nil => simp [lookupB] at h
  | cons p rest ih =>
    obtain ⟨j, nd₀⟩ := p
    by_cases hij : j = i
    · subst hij
      simp only [lookupB, eq_self_iff_true, if_true, Option.some.injEq] at h
      subst h
      exact List.mem_cons_self _ _
    · simp only [lookupB, if_neg hij] at h
      exact List.mem_cons_of_mem _ (ih h)

theorem lookupB_cons_self (st : BStore) (i : Nat) (nd : BNodeH) :
    lookupB ((i, nd) :: st) i = some nd := by
  simp [lookupB]

theorem lookupB_cons_ne (st : BStore) (i : Nat) (nd : BNodeH) (a : Nat)
    (h : a ≠ i) : lookupB ((i, nd) :: st) a = lookupB st a := by
  simp only [lookupB, if_neg (fun hh : i = a => h hh.symm)]

theorem lookupB_updateB_ne (st : BStore) (j : Nat) (nd : BNodeH) (a : Nat)
    (h : a ≠ j) : lookupB (updateB st j nd) a = lookupB st a := by
  induction st with
  | nil => rfl
  | cons p rest ih =>
    obtain ⟨i, nd₀⟩ := p
    by_cases hij : i = j
    · subst hij
      simp [updateB, lookupB, fun hh : i = a => h hh.symm, Ne.symm h]
    · simp only [updateB, if_neg hij, lookupB]
      by_cases hia : i = a
      · simp [hia]
      · simp [hia, ih]

theorem mem_updateB (st : BStore) (j : Nat) (nd : BNodeH) :
    ∀ p ∈ updateB st j nd, p.1 = j ∨ p ∈ st := by
  induction st with
  | nil => simp [updateB]
  | cons q rest ih =>
    obtain ⟨i, nd₀⟩ := q
    intro p hp
    by_cases hij : i = j
    · subst hij
      simp only [updateB, if_pos rfl] at hp
      rcases List.mem_cons.mp hp with hp | hp
      · exact Or.inl (by rw [hp])
      · exact Or.inr (List.mem_cons_of_mem _ hp)
    · simp only [updateB, if_neg hij] at hp
      rcases List.mem_cons.mp hp with hp | hp
      · exact Or.inr (by rw [hp]; exact List.mem_cons_self _ _)
      · rcases ih p hp with h | h
        · exact Or.inl h
        · exact Or.inr (List.mem_cons_of_mem _ h)

/-- Specification of `cloneB`: the counter grows, pre-existing
addresses keep their bound and their contents, and the copy is a tree
living entirely at addresses `≥` the starting counter. -/
theorem cloneB_spec : ∀ (fuel : Nat) (st : BStore) (r : Option Nat) (ctr : Nat),
    (∀ p ∈ st, p.1 < ctr) →
    ctr ≤ (cloneB fuel st r ctr).2.2 ∧
      (∀ p ∈ (cloneB fuel st r ctr).1, p.1 < (cloneB fuel st r ctr).2.2) ∧
      (∀ a, a < ctr → lookupB (cloneB fuel st r ctr).1 a = lookupB st a) ∧
      HiTree (cloneB fuel st r ctr).1 ctr (cloneB fuel st r ctr).2.1 := by
  intro fuel
  induction fuel with
  | zero =>
    intro st r ctr hdom
    exact ⟨le_refl _, hdom, fun a _ => rfl, HiTree.nil⟩
  | succ fuel ih =>
    intro st r ctr hdom
    cases r with
    | none => exact ⟨le_refl _, hdom, fun a _ => rfl, HiTree.nil⟩
    | some nid =>
      cases hnd : lookupB st nid with
      | none =>
        have heq : cloneB (fuel + 1) st (some nid) ctr = (st, none, ctr) := by
          simp [cloneB, hnd]
        rw [heq]
        exact ⟨le_refl _, hdom, fun a _ => rfl, HiTree.nil⟩
      | some nd =>
        simp only [cloneB, hnd]
        obtain ⟨hle₁, hdom₁, hagree₁, hhi₁⟩ := ih st nd.left ctr hdom
        obtain ⟨hle₂, hdom₂, hagree₂, hhi₂⟩ :=
          ih (cloneB fuel st nd.left ctr).1 nd.right
            (cloneB fuel st nd.left ctr).2.2 hdom₁
        set rl := cloneB fuel st nd.left ctr
        set rr := cloneB fuel rl.1 nd.right rl.2.2
        refine ⟨?_, ?_, ?_, ?_⟩
        · exact le_trans hle₁ (le_trans hle₂ (Nat.le_succ _))
        · intro p hp
          rcases List.mem_cons.mp hp with rfl | hp'
          · exact Nat.lt_succ_self _
          · exact lt_trans (hdom₂ p hp') (Nat.lt_succ_self _)
        · intro a ha
          rw [lookupB_cons_ne _ _ _ a
              (Nat.ne_of_lt (lt_of_lt_of_le ha (le_trans hle₁ hle₂)))]
          rw [hagree₂ a (lt_of_lt_of_le ha hle₁), hagree₁ a ha]
        · have hext₂ : ∀ i nd₀, lookupB rr.1 i = some nd₀ →
              lookupB ((rr.2.2, ⟨nd.value, rl.2.1, rr.2.1⟩) :: rr.1) i = some nd₀ := by
            intro i nd₀ hlk
            rw [lookupB_cons_ne]
            · exact hlk
            · exact Nat.ne_of_lt (hdom₂ (i, nd₀) (lookupB_mem _ _ _ hlk))
          have hext₁ : ∀ i nd₀, lookupB rl.1 i = some nd₀ →
              lookupB rr.1 i = some nd₀ := by
            intro i nd₀ hlk
            rw [hagree₂ i (hdom₁ (i, nd₀) (lookupB_mem _ _ _ hlk))]
            exact hlk
          refine HiTree.node (le_trans hle₁ hle₂) (lookupB_cons_self _ _ _) ?_ ?_
          · exact (hhi₁.mono hext₁).mono hext₂
          · exact (hhi₂.of_le hle₁).mono hext₂

theorem HiTree.inv {st : BStore} {lo i : Nat} (h : HiTree st lo (some i)) :
    ∃ nd, lo ≤ i ∧ lookupB st i = some nd ∧
      HiTree st lo nd.left ∧ HiTree st lo nd.right := by
  cases h with
  | node hle hlk hl hr => exact ⟨_, hle, hlk, hl, hr⟩

/-- The descent loop only reads nodes of the (cloned, high-address)
tree and finally attaches one fresh node to one of them: every
address below `lo` keeps its contents. -/
theorem bstWalkInsert_spec : ∀ (fuel : Nat) (st : BStore) (cur : Nat) (v : Int)
    (ctr lo : Nat), HiTree st lo (some cur) → (∀ p ∈ st, p.1 < ctr) →
    lo ≤ ctr →
    ctr ≤ (bstWalkInsert fuel st cur v ctr).2 ∧
      (∀ p ∈ (bstWalkInsert fuel st cur v ctr).1,
        p.1 < (bstWalkInsert fuel st cur v ctr).2) ∧
      (∀ a, a < lo → lookupB (bstWalkInsert fuel st cur v ctr).1 a = lookupB st a) := by
  intro fuel
  induction fuel with
  | zero =>
    intro st cur v ctr lo _ hdom _
    exact ⟨le_refl _, hdom, fun a _ => rfl⟩
  | succ fuel ih =>
    intro st cur v ctr lo hhi hdom hlo
    obtain ⟨nd, hcur, hlk, hl, hr⟩ := hhi.inv
    have hcurlt : cur < ctr := hdom (cur, nd) (lookupB_mem _ _ _ hlk)
    simp only [bstWalkInsert, hlk]
    by_cases hv : v = nd.value
    · rw [if_pos hv]
      exact ⟨le_refl _, hdom, fun a _ => rfl⟩
    · rw [if_neg hv]
      by_cases hlt : v < nd.value
      · rw [if_pos hlt]
        cases hleft : nd.left with
        | some l =>
          rw [hleft] at hl
          exact ih st l v ctr lo hl hdom hlo
        | none =>
          refine ⟨Nat.le_succ _, ?_, ?_⟩
          · intro p hp
            rcases List.mem_cons.mp hp with hp | hp
            · rw [hp]
              exact Nat.lt_succ_self _
            · rcases mem_updateB _ _ _ p hp with h | h
              · rw [h]
                exact lt_trans hcurlt (Nat.lt_succ_self _)
              · exact lt_trans (hdom p h) (Nat.lt_succ_self _)
          · intro a ha
            rw [lookupB_cons_ne _ _ _ a
                (Nat.ne_of_lt (lt_of_lt_of_le ha hlo))]
            exact lookupB_updateB_ne _ _ _ a
              (Nat.ne_of_lt (lt_of_lt_of_le ha hcur))
      · rw [if_neg hlt]
        cases hright : nd.right with
        | some r =>
          rw [hright] at hr
          exact ih st r v ctr lo hr hdom hlo
        | none =>
          refine ⟨Nat.le_succ _, ?_, ?_⟩
          · intro p hp
            rcases List.mem_cons.mp hp with hp | hp
            · rw [hp]
              exact Nat.lt_succ_self _
            · rcases mem_updateB _ _ _ p hp with h | h
              · rw [h]
                exact lt_trans hcurlt (Nat.lt_succ_self _)
              · exact lt_trans (hdom p h) (Nat.lt_succ_self _)
          · intro a ha
            rw [lookupB_cons_ne _ _ _ a
                (Nat.ne_of_lt (lt_of_lt_of_le ha hlo))]
            exact lookupB_updateB_ne _ _ _ a
              (Nat.ne_of_lt (lt_of_lt_of_le ha hcur))

/-- One `insertSingleValue` call: the counter grows, all store
addresses stay below it, and every pre-existing address keeps its
contents (the clone allocates fresh addresses, the walk mutates only
clones). -/
theorem insertSingleValueH_spec (fuel : Nat) (st : BStore) (root : Option Nat)
    (v : Int) (ctr : Nat) (hdom : ∀ p ∈ st, p.1 < ctr) :
    ctr ≤ (insertSingleValueH fuel st root v ctr).2.2 ∧
      (∀ p ∈ (insertSingleValueH fuel st root v ctr).1,
        p.1 < (insertSingleValueH fuel st root v ctr).2.2) ∧
      (∀ a, a < ctr →
        lookupB (insertSingleValueH fuel st root v ctr).1 a = lookupB st a) := by
  cases root with
  | none =>
    refine ⟨Nat.le_succ _, ?_, ?_⟩
    · intro p hp
      rcases List.mem_cons.mp hp with hp | hp
      · rw [hp]
        exact Nat.lt_succ_self _
      · exact lt_trans (hdom p hp) (Nat.lt_succ_self _)
    · intro a ha
      exact lookupB_cons_ne _ _ _ a (Nat.ne_of_lt ha)
  | some rootId =>
    obtain ⟨hle₁, hdom₁, hagree₁, hhi₁⟩ := cloneB_spec fuel st (some rootId) ctr hdom
    simp only [insertSingleValueH]
    cases hc : (cloneB fuel st (some rootId) ctr).2.1 with
    | none =>
      exact ⟨hle₁, hdom₁, hagree₁⟩
    | some rid =>
      rw [hc] at hhi₁
      obtain ⟨hle₂, hdom₂, hagree₂⟩ :=
        bstWalkInsert_spec fuel (cloneB fuel st (some rootId) ctr).1 rid v
          (cloneB fuel st (some rootId) ctr).2.2 ctr hhi₁ hdom₁ hle₁
      refine ⟨le_trans hle₁ hle₂, hdom₂, ?_⟩
      · intro a ha
        rw [hagree₂ a ha, hagree₁ a ha]

/-- The per-value loop of `insertWithSteps`. -/
theorem foldl_insertSingleValueH_spec (vals : List Int) :
    ∀ (fuel : Nat) (st : BStore) (root : Option Nat) (ctr : Nat),
      (∀ p ∈ st, p.1 < ctr) →
      ctr ≤ (vals.foldl
          (fun acc v => insertSingleValueH fuel acc.1 acc.2.1 v acc.2.2)
          (st, root, ctr)).2.2 ∧
        (∀ p ∈ (vals.foldl
            (fun acc v => insertSingleValueH fuel acc.1 acc.2.1 v acc.2.2)
            (st, root, ctr)).1,
          p.1 < (vals.foldl
            (fun acc v => insertSingleValueH fuel acc.1 acc.2.1 v acc.2.2)
            (st, root, ctr)).2.2) ∧
        (∀ a, a < ctr →
          lookupB (vals.foldl
            (fun acc v => insertSingleValueH fuel acc.1 acc.2.1 v acc.2.2)
            (st, root, ctr)).1 a = lookupB st a) := by
  induction vals with
  | nil =>
    intro fuel st root ctr hdom
    exact ⟨le_refl _, hdom, fun a _ => rfl⟩
  | cons v rest ih =>
    intro fuel st root ctr hdom
    obtain ⟨hle₁, hdom₁, hagree₁⟩ := insertSingleValueH_spec fuel st root v ctr hdom
    obtain ⟨hle₂, hdom₂, hagree₂⟩ :=
      ih fuel (insertSingleValueH fuel st root v ctr).1
        (insertSingleValueH fuel st root v ctr).2.1
        (insertSingleValueH fuel st root v ctr).2.2 hdom₁
    refine ⟨le_trans hle₁ hle₂, ?_, ?_⟩
    · simpa using hdom₂
    · intro a ha
      rw [List.foldl_cons]
      rw [hagree₂ a (lt_of_lt_of_le ha hle₁), hagree₁ a ha]

/-- C10 (amended, BST side): `insertWithSteps` of `bstOperations.ts`
never mutates the structure reachable from the caller's input root —
every address that exists before the call has identical contents
after it (the operation clones first and mutates only clones). -/
theorem insertWithSteps_no_input_mutation (fuel : Nat) (st : BStore)
    (root : Option Nat) (values : List Int) (ctr : Nat)
    (hdom : ∀ p ∈ st, p.1 < ctr) :
    ∀ a, a < ctr →
      lookupB (insertWithStepsH fuel st root values ctr).1 a = lookupB st a := by
  intro a ha
  rw [insertWithStepsH]
  by_cases hv : (dedupFirst values).isEmpty
  · rw [if_pos hv]
  · rw [if_neg hv]
    obtain ⟨hle₁, hdom₁, hagree₁, _⟩ := cloneB_spec fuel st root ctr hdom
    obtain ⟨_, _, hagree₂⟩ :=
      foldl_insertSingleValueH_spec (dedupFirst values) fuel
        (cloneB fuel st root ctr).1 (cloneB fuel st root ctr).2.1
        (cloneB fuel st root ctr).2.2 hdom₁
    rw [hagree₂ a (lt_of_lt_of_le ha hle₁), hagree₁ a ha]

/-- Witness for the amended C10 theorem: a one-node store with the
root at address 0 and counter 1; inserting 3 leaves address 0
untouched. -/
theorem insertWithSteps_no_input_mutation_witness :
    (∀ p ∈ [((0 : Nat), (⟨5, none, none⟩ : BNodeH))], p.1 < 1) ∧
      (0 : Nat) < 1 ∧
      lookupB (insertWithStepsH 10 [(0, ⟨5, none, none⟩)] (some 0) [3] 1).1 0 =
        lookupB [((0 : Nat), (⟨5, none, none⟩ : BNodeH))] 0 :=
  ⟨by decide, by decide,
    insertWithSteps_no_input_mutation 10 [(0, ⟨5, none, none⟩)] (some 0) [3] 1
      (by decide) 0 (by decide)⟩

/-- C10 (counterexample): `insertTrieWithSteps` mutates the caller's
trie in place — inserting the word "a" into the one-node trie rooted
at address 0 changes the record at address 0 (its children map gains
an entry), so the structure reachable from the input root is not
identical before and after the call. -/
theorem insertTrie_mutates_input :
    lookupT (insertTrieWithStepsH [(0, ⟨false, []⟩)] (some 0)
        [[Char.ofNat 97]] 1).1 0 ≠
      lookupT [((0 : Nat), (⟨false, []⟩ : TNode))] 0 := by
  decide

/-- C1 (code bug evidence): `buildAVLTreeWithSteps` on the input
values `1,2,3,4,5,6` returns a root whose node 4 has balance factor
−2, violating the AVL balance invariant claimed for every AVL
operation; the per-insert rebalancing of `insertAVLNodeWithSteps`
checks the rotation cases at the root only and never rebalances
deeper nodes. -/
theorem buildAVLTreeWithSteps_unbalanced :
    buildAVLTreeWithSteps [1, 2, 3, 4, 5, 6] =
        .node 3 (.node 2 (.node 1 .nil .nil) .nil)
          (.node 4 .nil (.node 5 .nil (.node 6 .nil .nil))) ∧
      balancedAVL (buildAVLTreeWithSteps [1, 2, 3, 4, 5, 6]) = false := by
  constructor
  · decide
  · decide

end TreeVis
